import Mathlib

set_option maxHeartbeats 1000000
set_option maxRecDepth 4000

/-! Shallow embedding of the de-vig / offer-pairing core of the repository
(pairing.py, novig.py, props_ncaaf.py, routes_ev_plays.py,
routes_line_shopping.py, app.py).  Python floats are modelled as rationals;
Python round() is round-half-to-even; Python int() on a number truncates
toward zero. -/

/-- Python round() on a rational: round half to even. -/
def pyRound (x : ℚ) : ℤ :=
  if Int.fract x < 1/2 then ⌊x⌋
  else if 1/2 < Int.fract x then ⌊x⌋ + 1
  else if ⌊x⌋ % 2 = 0 then ⌊x⌋ else ⌊x⌋ + 1

/-- Python round(x, 4): round half to even at four decimal places. -/
def round4 (x : ℚ) : ℚ := (pyRound (x * 10000) : ℚ) / 10000

/-- Python int() truncation toward zero on a rational. -/
def pyInt (x : ℚ) : ℤ := if 0 ≤ x then ⌊x⌋ else ⌈x⌉

namespace probability

/-- Modelled from the spec: `american_to_implied` lives in probability.py, which is
imported by novig.py, app.py and routes_line_shopping.py but is absent from the
sources.  Spec §4.3: for price p>0, implied = 100/(p+100); for p<0,
implied = |p|/(|p|+100) (written here as (-p)/(100-p), the same value). -/
def american_to_implied (o : ℚ) : ℚ :=
  if 0 < o then 100 / (o + 100) else (-o) / (100 - o)

/-- Modelled from the spec: `fair_probs_from_two_sided` lives in the absent
probability.py.  Spec §4.3 two-way de-vig: fair_A = implied_A/(implied_A+implied_B),
fair_B analogous (proportional margin removal); the pair is unavailable (None)
only when the implied total is degenerate (zero). -/
def fair_probs_from_two_sided (oa ob : ℚ) : Option (ℚ × ℚ) :=
  if american_to_implied oa + american_to_implied ob = 0 then none
  else some (american_to_implied oa / (american_to_implied oa + american_to_implied ob),
             american_to_implied ob / (american_to_implied oa + american_to_implied ob))

end probability

namespace novig

/-- novig.american_to_prob: delegates to probability.american_to_implied. -/
def american_to_prob (o : ℚ) : ℚ := probability.american_to_implied o

/-- novig.novig_two_way: uses probability.fair_probs_from_two_sided and falls
back to the raw implied probabilities when that returns None. -/
def novig_two_way (oa ob : ℚ) : ℚ × ℚ :=
  match probability.fair_probs_from_two_sided oa ob with
  | some (po, pu) => (po, pu)
  | none => (probability.american_to_implied oa, probability.american_to_implied ob)

end novig

/-- An odds field of a raw offer: an integer American price or a non-numeric
string (Python lets either through `odds != 0`). -/
inductive OddsVal where
  | int : ℤ → OddsVal
  | str : String → OddsVal
deriving DecidableEq, Repr

namespace novig

/-- novig.is_valid_odds: `odds is not None and odds != 0`.  A non-numeric
string compares unequal to 0 in Python, hence passes. -/
def is_valid_odds : Option OddsVal → Bool
  | none => false
  | some (.int z) => z != 0
  | some (.str _) => true

end novig

namespace props_ncaaf

/-- props_ncaaf.american_to_prob (the module-local fallback definition):
100/(o+100) for o>0, else (-o)/(100-o). -/
def american_to_prob (o : ℚ) : ℚ :=
  if 0 < o then 100 / (o + 100) else (-o) / (100 - o)

/-- props_ncaaf.novig_two_way (the module-local fallback definition):
z = (pa + pb) or 1.0; returns (pa/z, pb/z). -/
def novig_two_way (oa ob : ℚ) : ℚ × ℚ :=
  let pa := american_to_prob oa
  let pb := american_to_prob ob
  let z := if pa + pb = 0 then 1 else pa + pb
  (pa / z, pb / z)

/-- props_ncaaf.prob_to_american: returns 0 when p ≤ 0 or p ≥ 1, otherwise
round(-100p/(1-p)) for p ≥ 0.5 and round(100(1-p)/p) below. -/
def prob_to_american (p : ℚ) : ℤ :=
  if p ≤ 0 ∨ 1 ≤ p then 0
  else if 1/2 ≤ p then pyRound (-100 * p / (1 - p))
  else pyRound (100 * (1 - p) / p)

end props_ncaaf

namespace app

/-- app.american_to_prob: 0.0 for a missing price, else 100/(o+100) for o>0
and (-o)/(100-o) otherwise. -/
def american_to_prob (odds : Option ℚ) : ℚ :=
  match odds with
  | none => 0
  | some o => if 0 < o then 100 / (o + 100) else (-o) / (100 - o)

end app

namespace routes_line_shopping

/-- routes_line_shopping.fair_decimal: clamps p into [1e-6, 1-1e-6] and
returns 1/p. -/
def fair_decimal (p : ℚ) : ℚ :=
  1 / max (min p (1 - 1/1000000)) (1/1000000)

end routes_line_shopping

/-- Message of the Python ZeroDivisionError raised by 100.0/abs(a) at a = 0. -/
def msgZeroDivision : String := "ZeroDivisionError"

namespace routes_ev_plays

/-- routes_ev_plays.implied_prob_from_american: None for a non-numeric price,
else 100/(a+100) for a>0 and |a|/(|a|+100) otherwise. -/
def implied_prob_from_american (american : Option ℚ) : Option ℚ :=
  match american with
  | none => none
  | some a => some (if 0 < a then 100 / (a + 100) else |a| / (|a| + 100))

/-- routes_ev_plays.american_to_decimal: None for a non-numeric price, else
1 + a/100 for a>0 and 1 + 100/|a| otherwise; at a = 0 the source evaluates
100.0/abs(0.0) and raises ZeroDivisionError, modelled as an error value. -/
def american_to_decimal (american : Option ℚ) : Except String (Option ℚ) :=
  match american with
  | none => .ok none
  | some a =>
    if 0 < a then .ok (some (1 + a / 100))
    else if a = 0 then .error msgZeroDivision
    else .ok (some (1 + 100 / |a|))

/-- routes_ev_plays._pair_implied_no_vig: proportional normalization of a pair
of implied probabilities, None when either is missing or the sum is ≤ 0. -/
def pair_implied_no_vig (imp_a imp_b : Option ℚ) : Option ℚ × Option ℚ :=
  match imp_a, imp_b with
  | some a, some b =>
    let s := a + b
    if s ≤ 0 then (none, none) else (some (a / s), some (b / s))
  | _, _ => (none, none)

end routes_ev_plays

/-- Message of the Python ValueError raised by int() on a non-numeric string. -/
def msgValueError : String := "ValueError"

/-- Literal fragment of the fallback matchup key in pairing.build_props_novig. -/
def gameSep : String := " Game - "

namespace pairing

/-- A flat offer as consumed by pairing.build_props_novig.  Per the spec's
RawQuote data model the price is a (possibly missing) signed American-odds
integer; a non-numeric string variant is kept to model Python's untyped odds
field. -/
structure Offer where
  player : String
  stat : String
  line : Option ℚ
  side : String
  odds : Option OddsVal
  book : String
  matchup : String
deriving DecidableEq, Repr

/-- pairing._normalize_point on a numeric-or-missing line value: Decimal
quantization to three decimal places (ROUND_HALF_EVEN), so 0.5 and 0.50
coalesce. -/
def normalize_point (v : Option ℚ) : Option ℚ :=
  v.map (fun x => (pyRound (x * 1000) : ℚ) / 1000)

/-- One retained quote for one side of one key. -/
structure Entry where
  price : ℤ
  book : String
deriving DecidableEq, Repr

/-- The per-key offer set: at most one retained quote per side, plus the
matchup label ("" models Python's falsy None/empty). -/
structure Sides where
  over : Option Entry
  under : Option Entry
  matchup : String
deriving DecidableEq, Repr

def emptySides : Sides := { over := none, under := none, matchup := "" }

/-- The canonical offer key: (player, stat, normalized line). -/
abbrev Key := String × String × ℚ

/-- Lookup in the insertion-ordered grouped state (Python dict). -/
def getSides : List (Key × Sides) → Key → Sides
  | [], _ => emptySides
  | kv :: t, k => if kv.1 = k then kv.2 else getSides t k

/-- Update in the insertion-ordered grouped state; a new key is appended at
the end exactly as Python dict insertion does. -/
def setSides : List (Key × Sides) → Key → Sides → List (Key × Sides)
  | [], k, s => [(k, s)]
  | kv :: t, k, s => if kv.1 = k then (k, s) :: t else kv :: setSides t k s

/-- The book-selection policy of pairing.build_props_novig:
`keep = current is None or current.get("book") != "fanduel"`. -/
def keepNew : Option Entry → Bool
  | none => true
  | some e => e.book != "fanduel"

/-- Python int() applied to a stored odds value; a non-numeric string raises
ValueError. -/
def toPrice : OddsVal → Except String ℤ
  | .int z => .ok z
  | .str _ => .error msgValueError

/-- One iteration of the grouping loop of pairing.build_props_novig: validate
the offer, drop it if invalid, otherwise retain it for its side unless the
currently retained quote is from fanduel. -/
def updateGrouped (g : List (Key × Sides)) (o : Offer) : Except String (List (Key × Sides)) :=
  let player := o.player.trim
  let stat := o.stat.trim
  let line := normalize_point o.line
  let side := o.side.toLower
  let book := o.book.trim
  let matchup := o.matchup.trim
  match line with
  | none => .ok g
  | some lq =>
    if player = "" ∨ stat = "" ∨ ¬(side = "over" ∨ side = "under") ∨ ¬novig.is_valid_odds o.odds then
      .ok g
    else
      let k : Key := (player, stat, lq)
      let cur := getSides g k
      let curSide := if side = "over" then cur.over else cur.under
      if keepNew curSide then
        match o.odds with
        | some v =>
          match toPrice v with
          | .error e => .error e
          | .ok z =>
            let e : Entry := { price := z, book := book }
            let m := if cur.matchup = "" then matchup else cur.matchup
            let s := if side = "over" then { cur with over := some e, matchup := m }
                     else { cur with under := some e, matchup := m }
            .ok (setSides g k s)
        | none => .ok g
      else .ok g

/-- The grouping pass of pairing.build_props_novig over the whole offer list. -/
def groupOffersE (offers : List Offer) : Except String (List (Key × Sides)) :=
  offers.foldlM updateGrouped []

/-- One output prop record of pairing.build_props_novig, with the nested
"shop"/"fair" dictionaries flattened into fields. -/
structure PropRec where
  player : String
  stat : String
  line : ℚ
  side : String
  odds : ℤ
  book : String
  shop_over : Option Entry
  shop_under : Option Entry
  fair_over : ℚ
  fair_under : ℚ
  fair_book : String
deriving DecidableEq, Repr

/-- The per-key prop construction of pairing.build_props_novig: two-sided keys
get no-vig probabilities, single-sided keys get implied probability and its
complement, both rounded to four decimals; a key with neither side is
skipped. -/
def mkProp (k : Key) (s : Sides) : Option PropRec :=
  match s.over, s.under with
  | none, none => none
  | some ov, some un =>
    let pr := novig.novig_two_way (ov.price : ℚ) (un.price : ℚ)
    some { player := k.1, stat := k.2.1, line := k.2.2,
           side := "over", odds := ov.price, book := ov.book,
           shop_over := some ov, shop_under := some un,
           fair_over := round4 pr.1, fair_under := round4 pr.2,
           fair_book := if ov.book = "fanduel" then ov.book else un.book }
  | some ov, none =>
    let p := novig.american_to_prob (ov.price : ℚ)
    some { player := k.1, stat := k.2.1, line := k.2.2,
           side := "over", odds := ov.price, book := ov.book,
           shop_over := some ov, shop_under := none,
           fair_over := round4 p, fair_under := round4 (1 - p),
           fair_book := ov.book }
  | none, some un =>
    let p := novig.american_to_prob (un.price : ℚ)
    some { player := k.1, stat := k.2.1, line := k.2.2,
           side := "under", odds := un.price, book := un.book,
           shop_over := none, shop_under := some un,
           fair_over := round4 (1 - p), fair_under := round4 p,
           fair_book := un.book }

/-- The matchup grouping key: the stored matchup if non-empty, else
"LEAGUE Game - player". -/
def matchupKey (league player m : String) : String :=
  if m = "" then league.toUpper ++ gameSep ++ player else m

/-- Append a prop under its matchup key, preserving first-insertion order of
matchup keys (Python dict of lists). -/
def appendGrouped : List (String × List PropRec) → String → PropRec → List (String × List PropRec)
  | [], mk, p => [(mk, [p])]
  | kv :: t, mk, p => if kv.1 = mk then (mk, kv.2 ++ [p]) :: t else kv :: appendGrouped t mk p

/-- The second loop of pairing.build_props_novig: build a prop per grouped key
and collect the props by matchup. -/
def buildPhase2 (league : String) (g : List (Key × Sides)) : List (String × List PropRec) :=
  g.foldl (fun acc kv =>
    match mkProp kv.1 kv.2 with
    | none => acc
    | some p => appendGrouped acc (matchupKey league kv.1.1 kv.2.matchup) p) []

/-- pairing.build_props_novig (the prefer_books parameter is accepted and
ignored, as in the source). -/
def build_props_novig (league : String) (offers : List Offer)
    (prefer_books : Option (List String) := none) : Except String (List (String × List PropRec)) :=
  match prefer_books with
  | _ => (groupOffersE offers).map (buildPhase2 league)

/-- Integer value of a stored odds field (0 as a junk value for the variants
that the validity check or the no-string-odds hypotheses exclude). -/
def oddsInt : Option OddsVal → ℤ
  | some (.int z) => z
  | _ => 0

/-- The validity test an offer must pass in build_props_novig:
`all([player, stat, line, side in ("over","under"), is_valid_odds(odds)])`. -/
def offerValidB (o : Offer) : Bool :=
  o.player.trim != "" && o.stat.trim != "" && (normalize_point o.line).isSome &&
  (o.side.toLower == "over" || o.side.toLower == "under") && novig.is_valid_odds o.odds

/-- True when the offer's odds field holds a non-numeric string. -/
def hasStrOdds (o : Offer) : Bool :=
  match o.odds with
  | some (.str _) => true
  | _ => false

/-- The canonical key of an offer, when its line normalizes. -/
def offerKey (o : Offer) : Option Key :=
  (normalize_point o.line).map (fun lq => (o.player.trim, o.stat.trim, lq))

/-- The retained-entry contribution of one offer to one (key, side) slot:
some entry when the offer is valid and addresses that slot, none otherwise. -/
def entryFor (o : Offer) (k : Key) (sd : String) : Option Entry :=
  if offerValidB o ∧ offerKey o = some k ∧ o.side.toLower = sd
  then some { price := oddsInt o.odds, book := o.book.trim }
  else none

/-- All entry contributions to one (key, side) slot, in arrival order. -/
def entriesFor (offers : List Offer) (k : Key) (sd : String) : List Entry :=
  offers.filterMap (fun o => entryFor o k sd)

/-- The retained quote of one side of one key in the grouped state. -/
def sideOf (g : List (Key × Sides)) (k : Key) (sd : String) : Option Entry :=
  if sd = "over" then (getSides g k).over else (getSides g k).under

/-- The selection policy projected onto a single (key, side) slot. -/
def stepSide (cur : Option Entry) (e : Entry) : Option Entry :=
  if keepNew cur then some e else cur

/-- The entry the policy settles on, starting from a retained entry e and
consuming the remaining entries in arrival order. -/
def pickFrom (e : Entry) : List Entry → Entry
  | [] => e
  | x :: t => if e.book = "fanduel" then e else pickFrom x t

/-- No offer in the list carries a non-numeric string price. -/
def noStrOffers (offers : List Offer) : Prop :=
  ∀ o ∈ offers, hasStrOdds o = false

end pairing

/-- Refinement comparison definition, written from the spec's words (§4.3):
the probability is clamped to (1e-6, 1-1e-6) and then converted with
round(-100q/(1-q)) for q ≥ 0.5 and round(100(1-q)/q) otherwise. -/
def spec_prob_to_american (q : ℚ) : ℤ :=
  let c := max (min q (1 - 1/1000000)) (1/1000000)
  if 1/2 ≤ c then pyRound (-100 * c / (1 - c)) else pyRound (100 * (1 - c) / c)

namespace props_ncaaf

/-- The "fair" dictionary attached by props_ncaaf._attach_fair; a None field
models an absent dictionary key. -/
structure Fair where
  prob_over : Option ℚ
  prob_under : Option ℚ
  american_over : Option ℤ
  american_under : Option ℤ
deriving DecidableEq, Repr

/-- props_ncaaf._attach_fair: with both sides, no-vig probabilities and their
American equivalents for both sides; with one side, only the quoted side's
implied probability and raw price.  Returns the fair record and the book the
row is labelled with; none models the TypeError the source would raise with
no sides at all (its callers never produce that). -/
def attach_fair (over un : Option pairing.Entry) : Option (Fair × String) :=
  match over, un with
  | some ov, some u =>
    let pr := novig.novig_two_way (ov.price : ℚ) (u.price : ℚ)
    some ({ prob_over := some pr.1, prob_under := some pr.2,
            american_over := some (prob_to_american pr.1),
            american_under := some (prob_to_american pr.2) }, ov.book)
  | some ov, none =>
    some ({ prob_over := some (american_to_prob (ov.price : ℚ)), prob_under := none,
            american_over := some ov.price, american_under := none }, ov.book)
  | none, some u =>
    some ({ prob_over := none, prob_under := some (american_to_prob (u.price : ℚ)),
            american_over := none, american_under := some u.price }, u.book)
  | none, none => none

end props_ncaaf

namespace routes_ev_plays

/-- One outcome inside a bookmaker's market (Odds API shape). -/
structure Outcome where
  name : String
  price : Option ℚ
  point : Option ℚ
deriving DecidableEq, Repr

/-- One market of one bookmaker. -/
structure Market where
  key : String
  outcomes : List Outcome
deriving DecidableEq, Repr

/-- One bookmaker of one event ("" models a missing title/key). -/
structure Bookmaker where
  key : String
  title : String
  markets : List Market
deriving DecidableEq, Repr

/-- One event with its bookmakers. -/
structure Event where
  bookmakers : List Bookmaker
deriving DecidableEq, Repr

/-- A best-price candidate as assembled by routes_ev_plays._best_price_outcome;
the book field is attached later by _collect_best_from_event. -/
structure Cand where
  american : ℤ
  decimal : ℚ
  implied : ℚ
  point : Option ℚ
  book : Option String
deriving DecidableEq, Repr

/-- Candidate side strings used by the game-lines parser. -/
def sideHome : String := "home"

def sideAway : String := "away"

/-- The incumbent-vs-candidate choice of _best_price_outcome:
`if best is None or cand["decimal"] > best["decimal"]`. -/
def pickCand (best : Option Cand) (c : Cand) : Option Cand :=
  match best with
  | none => some c
  | some b => if b.decimal < c.decimal then some c else some b

/-- One step of the fold inside routes_ev_plays._best_price_outcome: skip
non-matching or priceless outcomes, propagate the ZeroDivisionError a zero
price raises, and otherwise keep the candidate with the strictly higher
decimal price (ties keep the incumbent). -/
def bposStep (side_name : String) (best : Option Cand) (o : Outcome) :
    Except String (Option Cand) :=
  if o.name.toLower != side_name then .ok best
  else
    match o.price with
    | none => .ok best
    | some price =>
      match american_to_decimal (some price) with
      | .error e => .error e
      | .ok decq =>
        match decq, implied_prob_from_american (some price) with
        | some dec, some imp =>
          let cand : Cand := { american := pyInt price, decimal := dec, implied := imp,
                               point := o.point, book := none }
          .ok (match best with
               | none => some cand
               | some b => if b.decimal < cand.decimal then some cand else some b)
        | _, _ => .ok best

/-- routes_ev_plays._best_price_outcome. -/
def best_price_outcome (m : Market) (side_name : String) : Except String (Option Cand) :=
  m.outcomes.foldlM (bposStep side_name) none

/-- The candidate one outcome contributes for one side (the body of bposStep
without the running best; it agrees with bposStep whenever the fold does not
raise, which excludes matching zero prices). -/
def candOf (side_name : String) (o : Outcome) : Option Cand :=
  if o.name.toLower != side_name then none
  else
    match o.price with
    | none => none
    | some price =>
      some { american := pyInt price,
             decimal := if 0 < price then 1 + price / 100 else 1 + 100 / |price|,
             implied := if 0 < price then 100 / (price + 100) else |price| / (|price| + 100),
             point := o.point, book := none }

/-- All candidates of a market for one side, in outcome order. -/
def candsOf (m : Market) (side_name : String) : List Cand :=
  m.outcomes.filterMap (candOf side_name)

/-- The best home/away pair tracked for the h2h market. -/
structure H2H where
  home : Option Cand
  away : Option Cand
deriving DecidableEq, Repr

/-- One spreads row of _collect_best_from_event. -/
structure SpreadRow where
  point : Option ℚ
  home : Option Cand
  away : Option Cand
deriving DecidableEq, Repr

/-- The result shape of routes_ev_plays._collect_best_from_event. -/
structure BestOut where
  h2h : Option H2H
  spreads : List SpreadRow
deriving DecidableEq, Repr

/-- Fallback book label when both title and key are missing. -/
def unknownName : String := "unknown"

/-- `bname = bk.get("title") or bk.get("key") or "unknown"`. -/
def bnameOf (bk : Bookmaker) : String :=
  if bk.title != "" then bk.title else if bk.key != "" then bk.key else unknownName

/-- Attach the source book to a candidate, if one was found. -/
def attachBook (b : String) : Option Cand → Option Cand
  | none => none
  | some c => some { c with book := some b }

/-- The cross-bookmaker merge of _collect_best_from_event: replace the held
candidate only when the new one has a strictly higher decimal price. -/
def mergeOne (prevSide cur : Option Cand) : Option Cand :=
  match cur with
  | none => prevSide
  | some c =>
    match prevSide with
    | none => some c
    | some p => if p.decimal < c.decimal then some c else some p

/-- Processing of one market inside _collect_best_from_event (home evaluated
before away, as in the source, so a zero price raises at the same point). -/
def cbeMarket (bname : String) (out : BestOut) (m : Market) : Except String BestOut :=
  if m.key = "h2h" then
    match best_price_outcome m sideHome with
    | .error e => .error e
    | .ok bh0 =>
      match best_price_outcome m sideAway with
      | .error e => .error e
      | .ok ba0 =>
        .ok { out with
              h2h := some
                { home := mergeOne (out.h2h.getD { home := none, away := none }).home
                           (attachBook bname bh0),
                  away := mergeOne (out.h2h.getD { home := none, away := none }).away
                           (attachBook bname ba0) } }
  else if m.key = "spreads" then
    match best_price_outcome m sideHome with
    | .error e => .error e
    | .ok bh0 =>
      match best_price_outcome m sideAway with
      | .error e => .error e
      | .ok ba0 =>
        .ok { out with spreads := out.spreads ++
              [{ point := match m.outcomes with
                  | [] => none
                  | o :: _ => o.point,
                 home := attachBook bname bh0, away := attachBook bname ba0 }] }
  else .ok out

/-- routes_ev_plays._collect_best_from_event. -/
def collect_best_from_event (ev : Event) : Except String BestOut :=
  ev.bookmakers.foldlM (fun out bk => bk.markets.foldlM (cbeMarket (bnameOf bk)) out)
    { h2h := none, spreads := [] }

/-- The book-attached h2h candidates one market contributes for one side. -/
def marketH2hCands (bname : String) (m : Market) (sd : String) : List Cand :=
  if m.key = "h2h" then (candsOf m sd).map (fun c => { c with book := some bname }) else []

/-- All h2h candidates of one side across every bookmaker of the event, in
arrival order. -/
def eventH2hCands (ev : Event) (sd : String) : List Cand :=
  ev.bookmakers.bind (fun bk => bk.markets.bind (fun m => marketH2hCands (bnameOf bk) m sd))

/-- A held slot is exactly the running best of the candidates folded so far:
unset iff none were seen, else a member maximizing the decimal payout. -/
def slotMax (slot : Option Cand) (L : List Cand) : Prop :=
  match slot with
  | none => L = []
  | some c => c ∈ L ∧ ∀ d ∈ L, d.decimal ≤ c.decimal

/-- The home slot of the running h2h record. -/
def homeSlot (oh : Option H2H) : Option Cand :=
  match oh with
  | none => none
  | some hh => hh.home

/-- The away slot of the running h2h record. -/
def awaySlot (oh : Option H2H) : Option Cand :=
  match oh with
  | none => none
  | some hh => hh.away

end routes_ev_plays

namespace app

/-- The parameters accepted by pairing.build_props_novig's signature. -/
def build_props_novig_params : List String := ["league", "offers", "prefer_books"]

/-- The keyword arguments passed to build_props_novig inside
app.player_props_top. -/
def player_props_top_call_kwargs : List String :=
  ["prefer_books", "allow_crossbook", "allow_single_side_fallback",
   "default_overround", "prefer_side", "high_threshold"]

/-- Python keyword binding: a call succeeds only when every keyword argument
names a declared parameter; otherwise it raises TypeError before the callee
body runs. -/
def call_accepts_kwargs (params kwargs : List String) : Bool :=
  kwargs.all (fun k => params.contains k)

/-- Error payload the route's except-branch returns. -/
def msgFailedToLoad : String := "Failed to load props"

/-- Outcome of the /player_props/top route body. -/
inductive TopRouteResult where
  | success
  | errorResponse (error : String) (total : Nat) (status : Nat)
deriving DecidableEq, Repr

/-- app.player_props_top modelled at the level of call dispatch: the
build_props_novig invocation in its try block either binds all its keyword
arguments and proceeds to the success payload, or raises TypeError, which the
except-branch turns into the error payload with HTTP status 500. -/
def player_props_top : TopRouteResult :=
  if call_accepts_kwargs build_props_novig_params player_props_top_call_kwargs
  then .success
  else .errorResponse msgFailedToLoad 0 500

end app

/-! Concrete inputs and expected outputs used by the witness and
counterexample theorems. -/

def leagueMLB : String := "mlb"

def strAbc : String := "abc"

def alphaName : String := "alpha"

def betaName : String := "beta"

def fanduelName : String := "fanduel"

def gammaName : String := "gamma"

namespace pairing

/-- Arrival-order side tag used by concrete statements. -/
def sdOver : String := "over"

def oOver105 : Offer :=
  { player := "Kyle Tucker", stat := "batter_hits", line := some (1/2), side := "Over",
    odds := some (.int 105), book := "draftkings", matchup := "HOU @ TEX" }

def oUnder125 : Offer :=
  { player := "Kyle Tucker", stat := "batter_hits", line := some (1/2), side := "Under",
    odds := some (.int (-125)), book := "fanduel", matchup := "HOU @ TEX" }

def oOverOnly : Offer :=
  { player := "Jose Altuve", stat := "batter_hits", line := some (1/2), side := "Over",
    odds := some (.int (-120)), book := "fanduel", matchup := "HOU @ TEX" }

def oAlpha : Offer :=
  { player := "P", stat := "s", line := some (1/2), side := "over",
    odds := some (.int 110), book := "alpha", matchup := "M" }

def oBeta : Offer :=
  { player := "P", stat := "s", line := some (1/2), side := "over",
    odds := some (.int 105), book := "beta", matchup := "M" }

def oFan : Offer :=
  { player := "P", stat := "s", line := some (1/2), side := "over",
    odds := some (.int 102), book := "fanduel", matchup := "M" }

def oBadOdds : Offer :=
  { player := "Q", stat := "s", line := some (3/2), side := "under",
    odds := some (.str strAbc), book := "gamma", matchup := "M2" }

def oNoLine : Offer :=
  { player := "R", stat := "s", line := none, side := "over",
    odds := some (.int 100), book := "delta", matchup := "M" }

def matchupHOU : String := "HOU @ TEX"

/-- Expected two-sided output prop for [oOver105, oUnder125]. -/
def propBoth : PropRec :=
  { player := "Kyle Tucker", stat := "batter_hits", line := 1/2, side := "over",
    odds := 105, book := "draftkings",
    shop_over := some { price := 105, book := "draftkings" },
    shop_under := some { price := -125, book := "fanduel" },
    fair_over := 187/400, fair_under := 213/400, fair_book := "fanduel" }

def outBoth : List (String × List PropRec) := [(matchupHOU, [propBoth])]

/-- Expected single-sided output prop for [oOverOnly]. -/
def propSingle : PropRec :=
  { player := "Jose Altuve", stat := "batter_hits", line := 1/2, side := "over",
    odds := -120, book := "fanduel",
    shop_over := some { price := -120, book := "fanduel" },
    shop_under := none,
    fair_over := 1091/2000, fair_under := 909/2000, fair_book := "fanduel" }

def outSingle : List (String × List PropRec) := [(matchupHOU, [propSingle])]

def keyPS : Key := ("P", "s", 1/2)

/-- Grouped state after [oAlpha, oBeta]: the second non-priority book wins. -/
def gLastWins : List (Key × Sides) :=
  [(keyPS, { over := some { price := 105, book := betaName }, under := none, matchup := "M" })]

/-- Grouped state after [oAlpha, oFan, oBeta]: fanduel wins and stays. -/
def gFanWins : List (Key × Sides) :=
  [(keyPS, { over := some { price := 102, book := fanduelName }, under := none, matchup := "M" })]

end pairing

namespace props_ncaaf

/-- Concrete retained Over quote of -120. -/
def entryDK : pairing.Entry := { price := -120, book := "dk" }

/-- The fair record _attach_fair produces for a single-sided Over -120: only
the quoted side is populated. -/
def fairSingleDK : Fair :=
  { prob_over := some (6/11), prob_under := none,
    american_over := some (-120), american_under := none }

end props_ncaaf

namespace routes_ev_plays

def bkAlpha : Bookmaker :=
  { key := "alpha", title := "alpha",
    markets := [{ key := "h2h", outcomes := [{ name := "home", price := some 100, point := none }] }] }

def bkBeta : Bookmaker :=
  { key := "beta", title := "beta",
    markets := [{ key := "h2h", outcomes := [{ name := "home", price := some 100, point := none }] }] }

def evAlphaBeta : Event := { bookmakers := [bkAlpha, bkBeta] }

def evBetaAlpha : Event := { bookmakers := [bkBeta, bkAlpha] }

def candAlphaHome : Cand :=
  { american := 100, decimal := 2, implied := 1/2, point := none, book := some alphaName }

def candBetaHome : Cand :=
  { american := 100, decimal := 2, implied := 1/2, point := none, book := some betaName }

/-- Concrete third bookmaker quoting a better home price +120. -/
def bkGamma : Bookmaker :=
  { key := "gamma", title := "gamma",
    markets := [{ key := "h2h", outcomes := [{ name := "home", price := some 120, point := none }] }] }

def evAlphaGamma : Event := { bookmakers := [bkAlpha, bkGamma] }

def candGammaHome : Cand :=
  { american := 120, decimal := 11/5, implied := 5/11, point := none, book := some gammaName }

/-- Expected collect_best_from_event outputs for the concrete events. -/
def outAlphaBeta : BestOut :=
  { h2h := some { home := some candAlphaHome, away := none }, spreads := [] }

def outBetaAlpha : BestOut :=
  { h2h := some { home := some candBetaHome, away := none }, spreads := [] }

def outAlphaGamma : BestOut :=
  { h2h := some { home := some candGammaHome, away := none }, spreads := [] }

end routes_ev_plays

namespace novig_multi

/-- Modelled from the spec: novig_multi.py, imported by props_ufc.py, is
absent from the sources.  Spec §4.3 two-way de-vig: proportional
normalization of the two implied probabilities. -/
def novig_two_way (oa ob : ℚ) : ℚ × ℚ :=
  (probability.american_to_implied oa /
    (probability.american_to_implied oa + probability.american_to_implied ob),
   probability.american_to_implied ob /
    (probability.american_to_implied oa + probability.american_to_implied ob))

/-- Modelled from the spec: novig_multi.prob_to_american (novig_multi.py is
absent from the sources).  Spec §4.3 probability → American equivalent with
the clamp to (1e-6, 1-1e-6), i.e. exactly the spec-side conversion. -/
def prob_to_american (p : ℚ) : ℤ := spec_prob_to_american p

end novig_multi

namespace props_ufc

/-- One outcome as read by props_ufc._collect_ml ("" models a missing or
empty, hence falsy, name/description). -/
structure UfcOutcome where
  name : String
  description : String
  price : Option ℚ
deriving DecidableEq, Repr

/-- One market of one bookmaker in the UFC feed. -/
structure UfcMarket where
  key : String
  outcomes : List UfcOutcome
deriving DecidableEq, Repr

/-- One bookmaker in the UFC feed; _collect_ml reads only its key. -/
structure UfcBookmaker where
  key : String
  markets : List UfcMarket
deriving DecidableEq, Repr

/-- markets_ufc.UFC_ML_MARKET. -/
def UFC_ML_MARKET : String := "h2h"

/-- `name = o.get("name") or o.get("description")`. -/
def outcomeName (o : UfcOutcome) : String :=
  if o.name != "" then o.name else o.description

/-- The tightest-price choice of _collect_ml:
`choose = (cur is None) or (abs(price) < abs(cur["price"]))` — the raw price
is compared against the stored integer price. -/
def mlChoose (cur : Option pairing.Entry) (price : ℚ) : Bool :=
  match cur with
  | none => true
  | some e => decide (|price| < |(e.price : ℚ)|)

/-- One outcome step of _collect_ml's selection loop for the fighter pair
(a, b); the model keeps one slot per fighter, as the Python best dict does
for the two distinct fighter names its caller passes. -/
def collectMlStep (a b bk : String) (best : Option pairing.Entry × Option pairing.Entry)
    (o : UfcOutcome) : Option pairing.Entry × Option pairing.Entry :=
  match o.price with
  | none => best
  | some price =>
    if outcomeName o = a then
      (if mlChoose best.1 price then some { price := pyInt price, book := bk } else best.1,
       best.2)
    else if outcomeName o = b then
      (best.1,
       if mlChoose best.2 price then some { price := pyInt price, book := bk } else best.2)
    else best

/-- The selection loop of props_ufc._collect_ml: per fighter, the retained
quote across every bookmaker's h2h market. -/
def collect_ml_best (bookmakers : List UfcBookmaker) (a b : String) :
    Option pairing.Entry × Option pairing.Entry :=
  bookmakers.foldl (fun best bkr =>
    bkr.markets.foldl (fun best m =>
      if m.key ≠ UFC_ML_MARKET then best
      else m.outcomes.foldl (collectMlStep a b bkr.key) best) best) (none, none)

/-- One moneyline row emitted by _collect_ml, nested dicts flattened. -/
structure MlRow where
  fighter : String
  opponent : String
  shop_ml_american : ℤ
  shop_ml_book : String
  fair_prob_ml : ℚ
  fair_american_ml : ℤ
deriving DecidableEq, Repr

/-- props_ufc._collect_ml: tightest-price selection per fighter, then one row
per fighter with no-vig fair probabilities, only when both fighters are
quoted. -/
def collect_ml (bookmakers : List UfcBookmaker) (a b : String) : List MlRow :=
  match collect_ml_best bookmakers a b with
  | (some ea, some eb) =>
    let pr := novig_multi.novig_two_way (ea.price : ℚ) (eb.price : ℚ)
    [{ fighter := a, opponent := b, shop_ml_american := ea.price, shop_ml_book := ea.book,
       fair_prob_ml := pr.1, fair_american_ml := novig_multi.prob_to_american pr.1 },
     { fighter := b, opponent := a, shop_ml_american := eb.price, shop_ml_book := eb.book,
       fair_prob_ml := pr.2, fair_american_ml := novig_multi.prob_to_american pr.2 }]
  | _ => []

/-- The quote one outcome contributes to fighter a's slot. -/
def mlQuoteOutcome (a bk : String) (o : UfcOutcome) : Option (ℚ × String) :=
  match o.price with
  | none => none
  | some price => if outcomeName o = a then some (price, bk) else none

/-- Every (raw price, book key) quote for fighter a across all bookmakers' h2h
markets, in arrival order. -/
def mlQuotesFor (bookmakers : List UfcBookmaker) (a : String) : List (ℚ × String) :=
  bookmakers.bind (fun bkr => bkr.markets.bind (fun m =>
    if m.key ≠ UFC_ML_MARKET then [] else m.outcomes.filterMap (mlQuoteOutcome a bkr.key)))

/-- The per-slot projection of the selection step. -/
def mlStepFst (cur : Option pairing.Entry) (p : ℚ × String) : Option pairing.Entry :=
  if mlChoose cur p.1 then some { price := pyInt p.1, book := p.2 } else cur

/-- A slot is the tightest-price selection over the quotes folded so far:
unset iff none were seen, else it stores the truncated price and book of one
quote and its stored absolute price is a lower bound for every quote's. -/
def mlSlotOK (slot : Option pairing.Entry) (Q : List (ℚ × String)) : Prop :=
  match slot with
  | none => Q = []
  | some e => (∃ p ∈ Q, e.price = pyInt p.1 ∧ e.book = p.2)
      ∧ ∀ p ∈ Q, |(e.price : ℚ)| ≤ |p.1|

/-- Concrete fighters and bookmakers: bookx quotes Ann +150 (decimal 2.5),
booky quotes Ann -120 (decimal 1.8333); _collect_ml keeps -120. -/
def fighterAnn : String := "Ann Quinn"

def fighterBob : String := "Bob Reyes"

def bkXName : String := "bookx"

def bkYName : String := "booky"

def ufcBkX : UfcBookmaker :=
  { key := "bookx",
    markets := [
      { key := "h2h",
        outcomes := [
          { name := "Ann Quinn", description := "", price := some 150 },
          { name := "Bob Reyes", description := "", price := some (-180) }] }] }

def ufcBkY : UfcBookmaker :=
  { key := "booky",
    markets := [
      { key := "h2h",
        outcomes := [
          { name := "Ann Quinn", description := "", price := some (-120) },
          { name := "Bob Reyes", description := "", price := some 100 }] }] }

def mlEntryAnn : pairing.Entry := { price := -120, book := "booky" }

def mlEntryBob : pairing.Entry := { price := 100, book := "booky" }

end props_ufc

namespace pairing

/-- Every retained entry of a per-key offer set has a nonzero price. -/
def sidesPricesOK (s : Sides) : Prop :=
  (∀ e, s.over = some e → e.price ≠ 0) ∧ (∀ e, s.under = some e → e.price ≠ 0)

/-- Every retained entry of the whole grouped state has a nonzero price. -/
def groupedPricesOK (g : List (Key × Sides)) : Prop :=
  ∀ kv ∈ g, sidesPricesOK kv.2

end pairing

/-! Core numeric lemmas. -/

theorem pyRound_intCast (z : ℤ) : pyRound (z : ℚ) = z := by
  unfold pyRound
  rw [Int.fract_intCast, Int.floor_intCast]
  norm_num

theorem abs_pyRound_sub_le (x : ℚ) : |(pyRound x : ℚ) - x| ≤ 1/2 := by
  have h0 : 0 ≤ Int.fract x := Int.fract_nonneg x
  have h1 : Int.fract x < 1 := Int.fract_lt_one x
  have hx : ((⌊x⌋ : ℤ) : ℚ) = x - Int.fract x := by rw [Int.fract]; ring
  rw [abs_le]
  unfold pyRound
  split
  next h => constructor <;> linarith [hx]
  next h =>
    split
    next h2 => constructor <;> push_cast <;> linarith
    next h2 =>
      have hr : Int.fract x = 1/2 := le_antisymm (not_lt.mp h2) (not_lt.mp h)
      split
      next => constructor <;> linarith [hx]
      next => constructor <;> push_cast <;> linarith

theorem pyRound_add_pyRound_sub (y : ℚ) (n : ℤ) (hn : n % 2 = 0) :
    pyRound y + pyRound ((n : ℚ) - y) = n := by
  have h0 : 0 ≤ Int.fract y := Int.fract_nonneg y
  have h1 : Int.fract y < 1 := Int.fract_lt_one y
  have hy : y = (⌊y⌋ : ℚ) + Int.fract y := by rw [Int.fract]; ring
  rcases eq_or_lt_of_le h0 with hz | hpos
  · rw [← hz, add_zero] at hy
    have hpy : pyRound y = ⌊y⌋ := by
      unfold pyRound
      rw [← hz]
      norm_num
    have h2 : (n : ℚ) - y = ((n - ⌊y⌋ : ℤ) : ℚ) := by
      push_cast
      linarith [hy]
    have hpy2 : pyRound ((n : ℚ) - y) = n - ⌊y⌋ := by rw [h2, pyRound_intCast]
    rw [hpy, hpy2]
    omega
  · have hfl : ⌊(n : ℚ) - y⌋ = n - ⌊y⌋ - 1 := by
      rw [Int.floor_eq_iff]
      constructor
      · push_cast
        nlinarith [hy, h1]
      · push_cast
        nlinarith [hy, hpos]
    have hfr : Int.fract ((n : ℚ) - y) = 1 - Int.fract y := by
      rw [Int.fract, hfl]
      push_cast
      nlinarith [hy]
    unfold pyRound
    rw [hfr, hfl]
    rcases lt_trichotomy (Int.fract y) (1/2 : ℚ) with hlt | heq | hgt
    · rw [if_pos hlt, if_neg (by linarith : ¬(1 - Int.fract y < 1/2)),
        if_pos (by linarith : (1:ℚ)/2 < 1 - Int.fract y)]
      omega
    · rw [if_neg (by rw [heq]; norm_num : ¬(Int.fract y < 1/2)),
        if_neg (by rw [heq]; norm_num : ¬((1:ℚ)/2 < Int.fract y)),
        if_neg (by rw [heq]; norm_num : ¬(1 - Int.fract y < 1/2)),
        if_neg (by rw [heq]; norm_num : ¬((1:ℚ)/2 < 1 - Int.fract y))]
      by_cases hpar : ⌊y⌋ % 2 = 0
      · rw [if_pos hpar, if_neg (by omega : ¬((n - ⌊y⌋ - 1) % 2 = 0))]
        omega
      · rw [if_neg hpar, if_pos (by omega : (n - ⌊y⌋ - 1) % 2 = 0)]
        omega
    · rw [if_neg (by linarith : ¬(Int.fract y < 1/2)), if_pos hgt,
        if_pos (by linarith : 1 - Int.fract y < 1/2)]
      omega

theorem round4_add_round4_one_sub (x : ℚ) : round4 x + round4 (1 - x) = 1 := by
  unfold round4
  have e1 : (1 - x) * 10000 = (10000 : ℚ) - x * 10000 := by ring
  rw [e1]
  have h := pyRound_add_pyRound_sub (x * 10000) 10000 (by norm_num)
  push_cast at h
  rw [div_add_div_same]
  have h2 : ((pyRound (x * 10000) : ℚ) + (pyRound ((10000 : ℚ) - x * 10000) : ℚ)) = 10000 := by
    exact_mod_cast h
  rw [h2]
  norm_num

theorem implied_pos (o : ℚ) (h : o ≠ 0) : 0 < probability.american_to_implied o := by
  unfold probability.american_to_implied
  split
  next hpos => exact div_pos (by norm_num) (by linarith)
  next hneg =>
    have hlt : o < 0 := lt_of_le_of_ne (not_lt.mp hneg) h
    exact div_pos (by linarith) (by linarith)

theorem novig_two_way_eq (oa ob : ℚ) (ha : oa ≠ 0) (hb : ob ≠ 0) :
    novig.novig_two_way oa ob =
      (probability.american_to_implied oa /
        (probability.american_to_implied oa + probability.american_to_implied ob),
       probability.american_to_implied ob /
        (probability.american_to_implied oa + probability.american_to_implied ob)) := by
  have hs : 0 < probability.american_to_implied oa + probability.american_to_implied ob :=
    add_pos (implied_pos oa ha) (implied_pos ob hb)
  unfold novig.novig_two_way probability.fair_probs_from_two_sided
  rw [if_neg (ne_of_gt hs)]

theorem novig_two_way_sum (oa ob : ℚ) (ha : oa ≠ 0) (hb : ob ≠ 0) :
    (novig.novig_two_way oa ob).1 + (novig.novig_two_way oa ob).2 = 1 := by
  have hs : 0 < probability.american_to_implied oa + probability.american_to_implied ob :=
    add_pos (implied_pos oa ha) (implied_pos ob hb)
  rw [novig_two_way_eq oa ob ha hb]
  field_simp

theorem props_ncaaf_atp (o : ℚ) : props_ncaaf.american_to_prob o = probability.american_to_implied o := rfl

/-- C2: for every pair of nonzero American prices the two-way de-vig returns
the proportionally normalized implied probabilities — in novig.novig_two_way,
in the props_ncaaf fallback, and in routes_ev_plays._pair_implied_no_vig. -/
theorem C2_two_way_devig (oa ob : ℚ) (ha : oa ≠ 0) (hb : ob ≠ 0) :
    novig.novig_two_way oa ob =
      (probability.american_to_implied oa /
        (probability.american_to_implied oa + probability.american_to_implied ob),
       probability.american_to_implied ob /
        (probability.american_to_implied oa + probability.american_to_implied ob))
    ∧ props_ncaaf.novig_two_way oa ob = novig.novig_two_way oa ob
    ∧ routes_ev_plays.pair_implied_no_vig (some (probability.american_to_implied oa))
        (some (probability.american_to_implied ob)) =
      (some (novig.novig_two_way oa ob).1, some (novig.novig_two_way oa ob).2) := by
  have hs : 0 < probability.american_to_implied oa + probability.american_to_implied ob :=
    add_pos (implied_pos oa ha) (implied_pos ob hb)
  have h1 := novig_two_way_eq oa ob ha hb
  refine ⟨h1, ?_, ?_⟩
  · unfold props_ncaaf.novig_two_way
    dsimp only
    rw [h1, props_ncaaf_atp, props_ncaaf_atp, if_neg (ne_of_gt hs)]
  · unfold routes_ev_plays.pair_implied_no_vig
    dsimp only
    rw [if_neg (not_le.mpr hs), h1]

/-- C2 witness: Over +105 and Under -125 yield fair probabilities 36/77 and
41/77, i.e. 0.4675 and 0.5325 to within 1e-4. -/
theorem C2_two_way_devig_witness :
    (105 : ℚ) ≠ 0 ∧ (-125 : ℚ) ≠ 0
    ∧ novig.novig_two_way 105 (-125) =
      (probability.american_to_implied 105 /
        (probability.american_to_implied 105 + probability.american_to_implied (-125)),
       probability.american_to_implied (-125) /
        (probability.american_to_implied 105 + probability.american_to_implied (-125)))
    ∧ novig.novig_two_way 105 (-125) = (36/77, 41/77)
    ∧ |(novig.novig_two_way 105 (-125)).1 - 4675/10000| < 1/10000
    ∧ |(novig.novig_two_way 105 (-125)).2 - 5325/10000| < 1/10000 :=
  ⟨by norm_num, by norm_num, (C2_two_way_devig 105 (-125) (by norm_num) (by norm_num)).1,
   by with_unfolding_all decide, by with_unfolding_all decide, by with_unfolding_all decide⟩

/-- C3: for every nonzero price p, app.american_to_prob and
routes_ev_plays.implied_prob_from_american return 100/(p+100) when p > 0 and
|p|/(|p|+100) when p < 0. -/
theorem C3_american_to_prob_formula (p : ℚ) (hp : p ≠ 0) :
    app.american_to_prob (some p) = (if 0 < p then 100 / (p + 100) else |p| / (|p| + 100))
    ∧ routes_ev_plays.implied_prob_from_american (some p) =
      some (if 0 < p then 100 / (p + 100) else |p| / (|p| + 100)) := by
  have key : (if 0 < p then (100:ℚ) / (p + 100) else (-p) / (100 - p)) =
      (if 0 < p then 100 / (p + 100) else |p| / (|p| + 100)) := by
    split
    · rfl
    next h =>
      have hneg : p < 0 := lt_of_le_of_ne (not_lt.mp h) hp
      rw [abs_of_neg hneg]
      congr 1
      ring
  exact ⟨key, rfl⟩

/-- C3 witness at p = -110. -/
theorem C3_american_to_prob_formula_witness :
    ((-110 : ℚ) ≠ 0)
    ∧ (app.american_to_prob (some (-110)) =
        (if 0 < (-110:ℚ) then 100 / ((-110:ℚ) + 100) else |(-110:ℚ)| / (|(-110:ℚ)| + 100))
      ∧ routes_ev_plays.implied_prob_from_american (some (-110)) =
        some (if 0 < (-110:ℚ) then 100 / ((-110:ℚ) + 100) else |(-110:ℚ)| / (|(-110:ℚ)| + 100))) :=
  ⟨by norm_num, C3_american_to_prob_formula (-110) (by norm_num)⟩

/-- C6 counterexample: at q = 1 props_ncaaf.prob_to_american returns 0 through
its boundary guard, while the claimed clamp-then-round conversion evaluates to
-99999900, so the code does not clamp into (1e-6, 1-1e-6). -/
theorem C6_counterexample_no_clamp_at_one :
    props_ncaaf.prob_to_american 1 = 0 ∧ spec_prob_to_american 1 = -99999900
    ∧ (0 : ℤ) ≠ -99999900 :=
  ⟨rfl, by with_unfolding_all decide, by decide⟩

/-- C6 amended: prob_to_american guards q ≤ 0 and q ≥ 1 by returning 0 instead
of clamping; strictly inside (1e-6, 1-1e-6) it agrees with the spec's
clamp-then-round conversion, and the clamping described by the spec is
performed by routes_line_shopping.fair_decimal, which is therefore positive
(no division by zero) for every q including 0 and 1. -/
theorem C6_prob_to_american_guard :
    (∀ q : ℚ, 1/1000000 < q → q < 1 - 1/1000000 →
      props_ncaaf.prob_to_american q = spec_prob_to_american q)
    ∧ props_ncaaf.prob_to_american 0 = 0
    ∧ props_ncaaf.prob_to_american 1 = 0
    ∧ (∀ q : ℚ, 0 < routes_line_shopping.fair_decimal q) := by
  refine ⟨?_, rfl, rfl, ?_⟩
  · intro q hlo hhi
    have hq0 : (0:ℚ) < q := lt_trans (by norm_num) hlo
    have hq1 : q < 1 := lt_trans hhi (by norm_num)
    simp only [props_ncaaf.prob_to_american, spec_prob_to_american]
    rw [min_eq_left (le_of_lt hhi), max_eq_left (le_of_lt hlo)]
    rw [if_neg (by push_neg; exact ⟨hq0, hq1⟩ : ¬(q ≤ 0 ∨ 1 ≤ q))]
  · intro q
    unfold routes_line_shopping.fair_decimal
    exact div_pos (by norm_num)
      (lt_of_lt_of_le (by norm_num : (0:ℚ) < 1/1000000) (le_max_right _ _))

/-- C6 witness: at q = 3/4 the guard-free region agrees with the spec
conversion. -/
theorem C6_prob_to_american_guard_witness :
    (1:ℚ)/1000000 < 3/4 ∧ (3:ℚ)/4 < 1 - 1/1000000
    ∧ props_ncaaf.prob_to_american (3/4) = spec_prob_to_american (3/4) :=
  ⟨by norm_num, by norm_num, C6_prob_to_american_guard.1 (3/4) (by norm_num) (by norm_num)⟩

theorem ratio_close (a b : ℚ) (ha : 100 ≤ a) (h1 : a - 1/2 ≤ b) (h2 : b ≤ a + 1/2) :
    |b / (100 + b) - a / (100 + a)| < 1/100 := by
  have hbd : (0:ℚ) < 100 + b := by linarith
  have had : (0:ℚ) < 100 + a := by linarith
  rw [div_sub_div _ _ (ne_of_gt hbd) (ne_of_gt had), abs_div,
    abs_of_pos (mul_pos hbd had), div_lt_iff₀ (mul_pos hbd had)]
  have hnum : b * (100 + a) - (100 + b) * a = 100 * (b - a) := by ring
  rw [hnum, abs_mul, abs_of_pos (by norm_num : (0:ℚ) < 100)]
  have habs : |b - a| ≤ 1/2 := abs_le.mpr ⟨by linarith, by linarith⟩
  have hprod : (399/2 : ℚ) * 200 ≤ (100 + b) * (100 + a) :=
    mul_le_mul (by linarith) (by linarith) (by norm_num) (by linarith)
  linarith

/-- C7: for q in (0.05, 0.95), converting q to its American equivalent and
back to a probability lands within 0.01 of q. -/
theorem C7_roundtrip (q : ℚ) (hlo : 1/20 < q) (hhi : q < 19/20) :
    |props_ncaaf.american_to_prob ((props_ncaaf.prob_to_american q : ℤ) : ℚ) - q| < 1/100 := by
  have h0 : (0:ℚ) < q := lt_trans (by norm_num) hlo
  have h1 : q < 1 := lt_trans hhi (by norm_num)
  unfold props_ncaaf.prob_to_american
  rw [if_neg (by push_neg; exact ⟨h0, h1⟩ : ¬(q ≤ 0 ∨ 1 ≤ q))]
  by_cases hhalf : (1:ℚ)/2 ≤ q
  · rw [if_pos hhalf]
    have h1q : (0:ℚ) < 1 - q := by linarith
    set x : ℚ := 100 * q / (1 - q) with hxdef
    have hxq : x * (1 - q) = 100 * q := by
      rw [hxdef, div_mul_cancel₀ _ (ne_of_gt h1q)]
    have hx100 : 100 ≤ x := by nlinarith [hxq]
    have hq_eq : q = x / (100 + x) := by
      have hq2 : q * (100 + x) = x := by nlinarith [hxq]
      rw [eq_div_iff (by linarith : (100:ℚ) + x ≠ 0)]
      linarith [hq2]
    have harg : -100 * q / (1 - q) = -x := by rw [hxdef]; ring
    rw [harg]
    set t : ℤ := pyRound (-x) with htdef
    have hterr : |(t:ℚ) - (-x)| ≤ 1/2 := abs_pyRound_sub_le (-x)
    rw [abs_le] at hterr
    have htneg : ¬(0 < (t:ℚ)) := by push_neg; linarith [hterr.2]
    unfold props_ncaaf.american_to_prob
    rw [if_neg htneg]
    have hform : (-(t:ℚ)) / (100 - (t:ℚ)) = (-(t:ℚ)) / (100 + (-(t:ℚ))) := by
      congr 1
      ring
    rw [hq_eq, hform]
    exact ratio_close x (-(t:ℚ)) hx100 (by linarith [hterr.2]) (by linarith [hterr.1])
  · rw [if_neg hhalf]
    have hq2 : q < 1/2 := not_le.mp hhalf
    set x : ℚ := 100 * (1 - q) / q with hxdef
    have hxq : x * q = 100 * (1 - q) := by
      rw [hxdef, div_mul_cancel₀ _ (ne_of_gt h0)]
    have hx100 : 100 ≤ x := by nlinarith [hxq]
    have hq_eq : q = 100 / (100 + x) := by
      have hq3 : q * (100 + x) = 100 := by nlinarith [hxq]
      rw [eq_div_iff (by linarith : (100:ℚ) + x ≠ 0)]
      linarith [hq3]
    set t : ℤ := pyRound x with htdef
    have hterr : |(t:ℚ) - x| ≤ 1/2 := abs_pyRound_sub_le x
    rw [abs_le] at hterr
    have htpos : 0 < (t:ℚ) := by linarith [hterr.1]
    unfold props_ncaaf.american_to_prob
    rw [if_pos htpos]
    have hden : (0:ℚ) < 100 + (t:ℚ) := by linarith
    have trans1 : (100:ℚ)/((t:ℚ)+100) = 1 - (t:ℚ)/(100 + (t:ℚ)) := by
      rw [eq_sub_iff_add_eq, div_add_div _ _ (ne_of_gt (by linarith : (0:ℚ) < (t:ℚ)+100)) (ne_of_gt hden)]
      rw [div_eq_one_iff_eq (by positivity)]
      ring
    have trans2 : q = 1 - x/(100+x) := by
      rw [hq_eq, eq_sub_iff_add_eq, div_add_div _ _ (ne_of_gt (by linarith : (0:ℚ) < 100+x)) (ne_of_gt (by linarith : (0:ℚ) < 100+x))]
      rw [div_eq_one_iff_eq (by positivity)]
      ring
    rw [trans1, trans2]
    have hneg : (1 - (t:ℚ)/(100+(t:ℚ))) - (1 - x/(100+x)) = -((t:ℚ)/(100+(t:ℚ)) - x/(100+x)) := by
      ring
    rw [hneg, abs_neg]
    exact ratio_close x (t:ℚ) hx100 (by linarith [hterr.1]) (by linarith [hterr.2])

/-- C7 witness at q = 3/5. -/
theorem C7_roundtrip_witness :
    (1:ℚ)/20 < 3/5 ∧ (3:ℚ)/5 < 19/20
    ∧ |props_ncaaf.american_to_prob ((props_ncaaf.prob_to_american (3/5) : ℤ) : ℚ) - 3/5| < 1/100 :=
  ⟨by norm_num, by norm_num, C7_roundtrip (3/5) (by norm_num) (by norm_num)⟩

/-- C10: the build_props_novig call in app.player_props_top passes keyword
arguments (allow_crossbook and others) that build_props_novig's signature
(league, offers, prefer_books) does not accept, so the call raises TypeError
and the route's error branch is always the one taken. -/
theorem C10_player_props_top_type_error :
    app.call_accepts_kwargs app.build_props_novig_params app.player_props_top_call_kwargs = false
    ∧ ¬ ("allow_crossbook" ∈ app.build_props_novig_params)
    ∧ app.player_props_top = .errorResponse app.msgFailedToLoad 0 500 := by
  decide

/-! Plumbing lemmas for the pairing aggregator. -/

open pairing

theorem getSides_setSides_self (g : List (Key × Sides)) (k : Key) (s : Sides) :
    getSides (setSides g k s) k = s := by
  induction g with
  | nil => simp [setSides, getSides]
  | cons kv t ih =>
    by_cases h : kv.1 = k
    · simp [setSides, getSides, h]
    · simp [setSides, getSides, h, ih]

theorem getSides_setSides_ne (g : List (Key × Sides)) (k k' : Key) (s : Sides) (hne : k' ≠ k) :
    getSides (setSides g k s) k' = getSides g k' := by
  induction g with
  | nil => simp [setSides, getSides, Ne.symm hne]
  | cons kv t ih =>
    by_cases h : kv.1 = k
    · simp [setSides, getSides, h, Ne.symm hne]
    · simp [setSides, getSides, h, ih]

theorem mem_setSides {g : List (Key × Sides)} {k : Key} {s : Sides} {kv : Key × Sides}
    (h : kv ∈ setSides g k s) : kv = (k, s) ∨ kv ∈ g := by
  induction g with
  | nil => simpa [setSides] using h
  | cons kv0 t ih =>
    by_cases h0 : kv0.1 = k
    · simp only [setSides, if_pos h0] at h
      rcases List.mem_cons.mp h with h1 | h1
      · exact Or.inl h1
      · exact Or.inr (List.mem_cons_of_mem _ h1)
    · simp only [setSides, if_neg h0] at h
      rcases List.mem_cons.mp h with h1 | h1
      · exact Or.inr (h1 ▸ List.mem_cons_self kv0 t)
      · rcases ih h1 with h2 | h2
        · exact Or.inl h2
        · exact Or.inr (List.mem_cons_of_mem _ h2)

theorem getSides_pricesOK : ∀ (g : List (Key × Sides)), groupedPricesOK g →
    ∀ k, sidesPricesOK (getSides g k) := by
  intro g
  induction g with
  | nil =>
    intro _ k
    constructor <;> intro e he <;> simp [getSides, emptySides] at he
  | cons kv t ih =>
    intro hg k
    by_cases h : kv.1 = k
    · simp only [getSides, if_pos h]
      exact hg kv (List.mem_cons_self kv t)
    · simp only [getSides, if_neg h]
      exact ih (fun kv' h' => hg kv' (List.mem_cons_of_mem _ h')) k

theorem is_valid_int_ne {oo : Option OddsVal} {z : ℤ} (ho : oo = some (.int z))
    (hv : novig.is_valid_odds oo = true) : z ≠ 0 := by
  rw [ho] at hv
  simpa [novig.is_valid_odds] using hv

theorem updateGrouped_pricesOK {g g' : List (Key × Sides)} {o : Offer}
    (hg : groupedPricesOK g) (h : updateGrouped g o = .ok g') : groupedPricesOK g' := by
  unfold updateGrouped at h
  cases hle : normalize_point o.line with
  | none =>
    rw [hle] at h
    injection h with h2
    exact h2 ▸ hg
  | some lq =>
    rw [hle] at h
    simp only [] at h
    split at h
    · injection h with h2
      exact h2 ▸ hg
    next hcond =>
      push_neg at hcond
      obtain ⟨hp, hs, hsd, hv⟩ := hcond
      have hcur := getSides_pricesOK g hg (o.player.trim, o.stat.trim, lq)
      split at h
      next hside =>
        split at h
        next hkeep =>
          cases ho : o.odds with
          | none =>
            rw [ho] at h
            injection h with h2
            exact h2 ▸ hg
          | some v =>
            rw [ho] at h
            cases v with
            | str s => exact absurd h (by simp [toPrice])
            | int z =>
              simp only [toPrice] at h
              injection h with h2
              subst h2
              have hz : z ≠ 0 := is_valid_int_ne ho hv
              intro kv hkv
              rcases mem_setSides hkv with rfl | hin
              · exact ⟨fun e he => by injection he with he2; exact he2 ▸ hz,
                       fun e he => hcur.2 e he⟩
              · exact hg kv hin
        next =>
          injection h with h2
          exact h2 ▸ hg
      next hside =>
        split at h
        next hkeep =>
          cases ho : o.odds with
          | none =>
            rw [ho] at h
            injection h with h2
            exact h2 ▸ hg
          | some v =>
            rw [ho] at h
            cases v with
            | str s => exact absurd h (by simp [toPrice])
            | int z =>
              simp only [toPrice] at h
              injection h with h2
              subst h2
              have hz : z ≠ 0 := is_valid_int_ne ho hv
              intro kv hkv
              rcases mem_setSides hkv with rfl | hin
              · exact ⟨fun e he => hcur.1 e he,
                       fun e he => by injection he with he2; exact he2 ▸ hz⟩
              · exact hg kv hin
        next =>
          injection h with h2
          exact h2 ▸ hg

theorem foldlM_pricesOK : ∀ (offers : List Offer) (g g' : List (Key × Sides)),
    List.foldlM updateGrouped g offers = .ok g' → groupedPricesOK g → groupedPricesOK g' := by
  intro offers
  induction offers with
  | nil =>
    intro g g' h hg
    simp only [List.foldlM_nil, pure] at h
    injection h with h2
    exact h2 ▸ hg
  | cons o t ih =>
    intro g g' h hg
    rw [List.foldlM_cons] at h
    cases hstep : updateGrouped g o with
    | error e =>
      rw [hstep] at h
      simp [Bind.bind, Except.bind] at h
    | ok g1 =>
      rw [hstep] at h
      simp only [Bind.bind, Except.bind] at h
      exact ih g1 g' h (updateGrouped_pricesOK hg hstep)

theorem groupOffersE_pricesOK {offers : List Offer} {g : List (Key × Sides)}
    (h : groupOffersE offers = .ok g) : groupedPricesOK g :=
  foldlM_pricesOK offers [] g h (fun kv hkv => by simp at hkv)

theorem mem_appendGrouped {acc : List (String × List PropRec)} {mk : String} {p q : PropRec}
    {m : String} {props : List PropRec}
    (h : (m, props) ∈ appendGrouped acc mk p) (hq : q ∈ props) :
    q = p ∨ ∃ m0 props0, (m0, props0) ∈ acc ∧ q ∈ props0 := by
  induction acc generalizing m props with
  | nil =>
    simp only [appendGrouped, List.mem_singleton] at h
    obtain ⟨h1, h2⟩ := Prod.mk.injEq .. ▸ h
    subst h2
    simp only [List.mem_singleton] at hq
    exact Or.inl hq
  | cons kv t ih =>
    by_cases h0 : kv.1 = mk
    · simp only [appendGrouped, if_pos h0] at h
      rcases List.mem_cons.mp h with h1 | h1
      · obtain ⟨h2, h3⟩ := Prod.mk.injEq .. ▸ h1
        subst h3
        rcases List.mem_append.mp hq with h4 | h4
        · exact Or.inr ⟨kv.1, kv.2, List.mem_cons_self kv t, h4⟩
        · simp only [List.mem_singleton] at h4
          exact Or.inl h4
      · exact Or.inr ⟨m, props, List.mem_cons_of_mem _ h1, hq⟩
    · simp only [appendGrouped, if_neg h0] at h
      rcases List.mem_cons.mp h with h1 | h1
      · exact Or.inr ⟨m, props, h1 ▸ List.mem_cons_self kv t, hq⟩
      · rcases ih h1 hq with h2 | ⟨m0, props0, h3, h4⟩
        · exact Or.inl h2
        · exact Or.inr ⟨m0, props0, List.mem_cons_of_mem _ h3, h4⟩

theorem mem_buildPhase2_aux {league : String} {q : PropRec} :
    ∀ (g : List (Key × Sides)) (acc : List (String × List PropRec)) (m : String)
      (props : List PropRec),
      (m, props) ∈ g.foldl (fun acc kv =>
        match mkProp kv.1 kv.2 with
        | none => acc
        | some p => appendGrouped acc (matchupKey league kv.1.1 kv.2.matchup) p) acc →
      q ∈ props →
      (∃ m0 props0, (m0, props0) ∈ acc ∧ q ∈ props0) ∨
      ∃ kv ∈ g, mkProp kv.1 kv.2 = some q := by
  intro g
  induction g with
  | nil =>
    intro acc m props h hq
    exact Or.inl ⟨m, props, h, hq⟩
  | cons kv t ih =>
    intro acc m props h hq
    rw [List.foldl_cons] at h
    cases hmk : mkProp kv.1 kv.2 with
    | none =>
      rw [hmk] at h
      rcases ih acc m props h hq with h1 | ⟨kv0, h2, h3⟩
      · exact Or.inl h1
      · exact Or.inr ⟨kv0, List.mem_cons_of_mem _ h2, h3⟩
    | some p =>
      rw [hmk] at h
      rcases ih _ m props h hq with ⟨m0, props0, h1, h2⟩ | ⟨kv0, h3, h4⟩
      · rcases mem_appendGrouped h1 h2 with h5 | ⟨m1, props1, h6, h7⟩
        · exact Or.inr ⟨kv, List.mem_cons_self kv t, h5 ▸ hmk⟩
        · exact Or.inl ⟨m1, props1, h6, h7⟩
      · exact Or.inr ⟨kv0, List.mem_cons_of_mem _ h3, h4⟩

theorem mem_buildPhase2 {league : String} {g : List (Key × Sides)} {m : String}
    {props : List PropRec} {q : PropRec}
    (h : (m, props) ∈ buildPhase2 league g) (hq : q ∈ props) :
    ∃ kv ∈ g, mkProp kv.1 kv.2 = some q := by
  rcases mem_buildPhase2_aux g [] m props h hq with ⟨m0, props0, h1, _⟩ | h1
  · simp at h1
  · exact h1

/-- C1: every prop record emitted by pairing.build_props_novig has fair
probabilities that sum to exactly 1 (hence to 1.0 within 1e-6), in both the
two-sided no-vig derivation and the single-sided implied/complement
derivation, after the 4-decimal rounding the code applies. -/
theorem C1_fair_prob_sum (league : String) (offers : List Offer)
    (out : List (String × List PropRec)) (m : String) (props : List PropRec) (p : PropRec)
    (hb : build_props_novig league offers = .ok out)
    (hm : (m, props) ∈ out) (hp : p ∈ props) :
    p.fair_over + p.fair_under = 1 ∧ |p.fair_over + p.fair_under - 1| ≤ 1/1000000 := by
  unfold build_props_novig at hb
  dsimp only [] at hb
  cases hg : groupOffersE offers with
  | error e =>
    rw [hg] at hb
    simp [Except.map] at hb
  | ok g =>
    rw [hg] at hb
    simp only [Except.map] at hb
    injection hb with hb2
    subst hb2
    obtain ⟨kv, hkv, hmk⟩ := mem_buildPhase2 hm hp
    have hprices := groupOffersE_pricesOK hg kv hkv
    have hsum : p.fair_over + p.fair_under = 1 := by
      unfold mkProp at hmk
      cases hov : kv.2.over with
      | none =>
        cases hun : kv.2.under with
        | none =>
          rw [hov, hun] at hmk
          exact absurd hmk (by simp)
        | some un =>
          rw [hov, hun] at hmk
          injection hmk with h2
          subst h2
          dsimp only
          rw [add_comm]
          exact round4_add_round4_one_sub _
      | some ov =>
        cases hun : kv.2.under with
        | none =>
          rw [hov, hun] at hmk
          injection hmk with h2
          subst h2
          dsimp only
          exact round4_add_round4_one_sub _
        | some un =>
          rw [hov, hun] at hmk
          injection hmk with h2
          subst h2
          dsimp only
          have ho : ((ov.price : ℤ) : ℚ) ≠ 0 := Int.cast_ne_zero.mpr (hprices.1 ov hov)
          have hu : ((un.price : ℤ) : ℚ) ≠ 0 := Int.cast_ne_zero.mpr (hprices.2 un hun)
          have hsum2 := novig_two_way_sum ((ov.price : ℤ) : ℚ) ((un.price : ℤ) : ℚ) ho hu
          have h21 : (novig.novig_two_way ((ov.price : ℤ) : ℚ) ((un.price : ℤ) : ℚ)).2 =
              1 - (novig.novig_two_way ((ov.price : ℤ) : ℚ) ((un.price : ℤ) : ℚ)).1 := by
            linarith
          rw [h21]
          exact round4_add_round4_one_sub _
    exact ⟨hsum, by rw [hsum]; norm_num⟩

/-- C1 witness: a concrete two-sided batch (Over +105 by draftkings, Under
-125 by fanduel) yields a prop whose rounded fair probabilities
0.4675 + 0.5325 sum to 1. -/
theorem C1_fair_prob_sum_witness :
    build_props_novig leagueMLB [oOver105, oUnder125] = .ok outBoth
    ∧ (matchupHOU, [propBoth]) ∈ outBoth ∧ propBoth ∈ [propBoth]
    ∧ propBoth.fair_over + propBoth.fair_under = 1
    ∧ |propBoth.fair_over + propBoth.fair_under - 1| ≤ 1/1000000 := by
  have h1 : build_props_novig leagueMLB [oOver105, oUnder125] = .ok outBoth := by
    with_unfolding_all rfl
  have h2 : (matchupHOU, [propBoth]) ∈ outBoth := List.mem_singleton.mpr rfl
  have h3 : propBoth ∈ [propBoth] := List.mem_singleton.mpr rfl
  have h4 := C1_fair_prob_sum leagueMLB [oOver105, oUnder125] outBoth matchupHOU
    [propBoth] propBoth h1 h2 h3
  exact ⟨h1, h2, h3, h4.1, h4.2⟩

/-- C5 counterexample: props_ncaaf._attach_fair on a single-sided Over -120
attaches only the quoted side's implied probability 6/11 and leaves the
complement side absent, rather than setting it to 1 - 6/11 = 5/11 — the
record carries no single_sided derivation tag either. -/
theorem C5_counterexample_complement_missing :
    props_ncaaf.attach_fair (some props_ncaaf.entryDK) none =
      some (props_ncaaf.fairSingleDK, props_ncaaf.entryDK.book)
    ∧ props_ncaaf.fairSingleDK.prob_over = some (6/11)
    ∧ props_ncaaf.fairSingleDK.prob_under = none
    ∧ props_ncaaf.fairSingleDK.prob_under ≠ some (5/11) := by
  refine ⟨by with_unfolding_all rfl, by with_unfolding_all rfl, rfl, by simp [props_ncaaf.fairSingleDK]⟩

/-- C5 amended: in pairing.build_props_novig a single-sided key yields fair of
the quoted side equal to its rounded implied probability and the complement
equal to the rounded 1 - implied; the quoted side is recorded in the prop's
side field (no explicit derivation tag exists). -/
theorem C5_single_sided_fair (league : String) (offers : List Offer)
    (out : List (String × List PropRec)) (m : String) (props : List PropRec) (p : PropRec)
    (hb : build_props_novig league offers = .ok out)
    (hm : (m, props) ∈ out) (hp : p ∈ props) :
    (p.shop_under = none → p.side = "over"
      ∧ p.shop_over = some { price := p.odds, book := p.book }
      ∧ p.fair_over = round4 (novig.american_to_prob (p.odds : ℚ))
      ∧ p.fair_under = round4 (1 - novig.american_to_prob (p.odds : ℚ)))
    ∧ (p.shop_over = none → p.side = "under"
      ∧ p.shop_under = some { price := p.odds, book := p.book }
      ∧ p.fair_under = round4 (novig.american_to_prob (p.odds : ℚ))
      ∧ p.fair_over = round4 (1 - novig.american_to_prob (p.odds : ℚ))) := by
  unfold build_props_novig at hb
  dsimp only [] at hb
  cases hg : groupOffersE offers with
  | error e =>
    rw [hg] at hb
    simp [Except.map] at hb
  | ok g =>
    rw [hg] at hb
    simp only [Except.map] at hb
    injection hb with hb2
    subst hb2
    obtain ⟨kv, hkv, hmk⟩ := mem_buildPhase2 hm hp
    unfold mkProp at hmk
    cases hov : kv.2.over with
    | none =>
      cases hun : kv.2.under with
      | none =>
        rw [hov, hun] at hmk
        exact absurd hmk (by simp)
      | some un =>
        rw [hov, hun] at hmk
        injection hmk with h2
        subst h2
        exact ⟨fun h => absurd h (by simp), fun _ => ⟨rfl, rfl, rfl, rfl⟩⟩
    | some ov =>
      cases hun : kv.2.under with
      | none =>
        rw [hov, hun] at hmk
        injection hmk with h2
        subst h2
        exact ⟨fun _ => ⟨rfl, rfl, rfl, rfl⟩, fun h => absurd h (by simp)⟩
      | some un =>
        rw [hov, hun] at hmk
        injection hmk with h2
        subst h2
        exact ⟨fun h => absurd h (by simp), fun h => absurd h (by simp)⟩

/-- C5 witness: only an Over price of -120 quoted yields rounded fair
probabilities 0.5455 for over and 0.4545 for under, with side = "over". -/
theorem C5_single_sided_fair_witness :
    build_props_novig leagueMLB [oOverOnly] = .ok outSingle
    ∧ (matchupHOU, [propSingle]) ∈ outSingle ∧ propSingle ∈ [propSingle]
    ∧ propSingle.shop_under = none
    ∧ propSingle.side = "over"
    ∧ propSingle.shop_over = some { price := propSingle.odds, book := propSingle.book }
    ∧ propSingle.fair_over = round4 (novig.american_to_prob (propSingle.odds : ℚ))
    ∧ propSingle.fair_under = round4 (1 - novig.american_to_prob (propSingle.odds : ℚ))
    ∧ propSingle.fair_over = 5455/10000 ∧ propSingle.fair_under = 4545/10000 := by
  have h1 : build_props_novig leagueMLB [oOverOnly] = .ok outSingle := by
    with_unfolding_all rfl
  have h2 : (matchupHOU, [propSingle]) ∈ outSingle := List.mem_singleton.mpr rfl
  have h3 : propSingle ∈ [propSingle] := List.mem_singleton.mpr rfl
  have h4 := (C5_single_sided_fair leagueMLB [oOverOnly] outSingle matchupHOU
    [propSingle] propSingle h1 h2 h3).1 rfl
  exact ⟨h1, h2, h3, rfl, h4.1, h4.2.1, h4.2.2.1, h4.2.2.2,
    by with_unfolding_all decide, by with_unfolding_all decide⟩

theorem offerValidB_parts {o : Offer} (h : offerValidB o = true) :
    o.player.trim ≠ "" ∧ o.stat.trim ≠ "" ∧ (normalize_point o.line).isSome = true
    ∧ (o.side.toLower = "over" ∨ o.side.toLower = "under")
    ∧ novig.is_valid_odds o.odds = true := by
  simp only [offerValidB, Bool.and_eq_true, bne_iff_ne, ne_eq, Bool.or_eq_true,
    beq_iff_eq] at h
  tauto

theorem offerValidB_of_parts {o : Offer} (h1 : o.player.trim ≠ "") (h2 : o.stat.trim ≠ "")
    (h3 : (normalize_point o.line).isSome = true)
    (h4 : o.side.toLower = "over" ∨ o.side.toLower = "under")
    (h5 : novig.is_valid_odds o.odds = true) : offerValidB o = true := by
  simp only [offerValidB, Bool.and_eq_true, bne_iff_ne, ne_eq, Bool.or_eq_true, beq_iff_eq]
  tauto

theorem sideOf_nil (k : Key) (sd : String) : sideOf [] k sd = none := by
  unfold sideOf getSides emptySides
  split <;> rfl

theorem updateGrouped_sideOf {g g' : List (Key × Sides)} {o : Offer} {k : Key} {sd : String}
    (hsd : sd = "over" ∨ sd = "under")
    (h : updateGrouped g o = .ok g') :
    sideOf g' k sd = (match entryFor o k sd with
      | none => sideOf g k sd
      | some e => stepSide (sideOf g k sd) e) := by
  by_cases hc : offerValidB o = true ∧ offerKey o = some k ∧ o.side.toLower = sd
  · simp only [entryFor, if_pos hc]
    obtain ⟨hval, hkey, hside⟩ := hc
    obtain ⟨hp, hst, hls, hsides, hvo⟩ := offerValidB_parts hval
    unfold offerKey at hkey
    cases hle : normalize_point o.line with
    | none =>
      rw [hle] at hkey
      simp at hkey
    | some lq =>
      rw [hle] at hkey
      simp only [Option.map_some'] at hkey
      injection hkey with hkey2
      subst hkey2
      unfold updateGrouped at h
      rw [hle] at h
      simp only [] at h
      rw [if_neg (by push_neg; exact ⟨hp, hst, hsides, hvo⟩)] at h
      cases ho : o.odds with
      | none => rw [ho] at hvo; simp [novig.is_valid_odds] at hvo
      | some v =>
        rw [ho] at h
        rcases hsd with rfl | rfl
        · rw [hside] at h
          simp only [String.reduceEq, reduceIte] at h
          split at h
          next hkeep =>
            cases v with
            | str s => exact absurd h (by simp [toPrice])
            | int z =>
              simp only [toPrice] at h
              injection h with h2
              subst h2
              simp only [sideOf, String.reduceEq, reduceIte]
              rw [getSides_setSides_self, stepSide, if_pos hkeep]
              simp [ho, oddsInt]
          next hkeep =>
            injection h with h2
            subst h2
            simp only [sideOf, String.reduceEq, reduceIte] at hkeep ⊢
            rw [stepSide, if_neg hkeep]
        · rw [hside] at h
          simp only [String.reduceEq, reduceIte] at h
          split at h
          next hkeep =>
            cases v with
            | str s => exact absurd h (by simp [toPrice])
            | int z =>
              simp only [toPrice] at h
              injection h with h2
              subst h2
              simp only [sideOf, String.reduceEq, reduceIte]
              rw [getSides_setSides_self, stepSide, if_pos hkeep]
              simp [ho, oddsInt]
          next hkeep =>
            injection h with h2
            subst h2
            simp only [sideOf, String.reduceEq, reduceIte] at hkeep ⊢
            rw [stepSide, if_neg hkeep]
  · simp only [entryFor, if_neg hc]
    unfold updateGrouped at h
    cases hle : normalize_point o.line with
    | none =>
      rw [hle] at h
      injection h with h2
      subst h2
      rfl
    | some lq =>
      rw [hle] at h
      simp only [] at h
      split at h
      · injection h with h2
        subst h2
        rfl
      next hcond2 =>
        push_neg at hcond2
        obtain ⟨hp, hst, hsides, hvo⟩ := hcond2
        have hval : offerValidB o = true :=
          offerValidB_of_parts hp hst (by rw [hle]; rfl) hsides hvo
        have hnk : ¬(offerKey o = some k) ∨ ¬(o.side.toLower = sd) := by
          by_contra hcc
          push_neg at hcc
          exact hc ⟨hval, hcc.1, hcc.2⟩
        have hok : offerKey o = some (o.player.trim, o.stat.trim, lq) := by
          unfold offerKey
          rw [hle]
          rfl
        split at h
        next hov =>
          split at h
          next hkeep =>
            cases ho : o.odds with
            | none =>
              rw [ho] at h
              injection h with h2
              subst h2
              rfl
            | some v =>
              cases v with
              | str s =>
                rw [ho] at h
                exact absurd h (by simp [toPrice])
              | int z =>
                rw [ho] at h
                simp only [toPrice] at h
                injection h with h2
                subst h2
                by_cases hkk : (o.player.trim, o.stat.trim, lq) = k
                · subst hkk
                  have hsd2 : sd = "under" := by
                    rcases hnk with hn1 | hn2
                    · exact absurd hok hn1
                    · rcases hsd with rfl | rfl
                      · exact absurd hov hn2
                      · rfl
                  subst hsd2
                  simp only [sideOf, String.reduceEq, reduceIte]
                  rw [getSides_setSides_self]
                · simp only [sideOf]
                  rw [getSides_setSides_ne _ _ _ _ (fun hx => hkk hx.symm)]
          next hkeep =>
            injection h with h2
            subst h2
            rfl
        next hov =>
          split at h
          next hkeep =>
            cases ho : o.odds with
            | none =>
              rw [ho] at h
              injection h with h2
              subst h2
              rfl
            | some v =>
              cases v with
              | str s =>
                rw [ho] at h
                exact absurd h (by simp [toPrice])
              | int z =>
                rw [ho] at h
                simp only [toPrice] at h
                injection h with h2
                subst h2
                by_cases hkk : (o.player.trim, o.stat.trim, lq) = k
                · subst hkk
                  have hsd2 : sd = "over" := by
                    rcases hnk with hn1 | hn2
                    · exact absurd hok hn1
                    · rcases hsd with rfl | rfl
                      · rfl
                      · rcases hsides with hs1 | hs1
                        · exact absurd hs1 hov
                        · exact absurd hs1 hn2
                  subst hsd2
                  simp only [sideOf, String.reduceEq, reduceIte]
                  rw [getSides_setSides_self]
                · simp only [sideOf]
                  rw [getSides_setSides_ne _ _ _ _ (fun hx => hkk hx.symm)]
          next hkeep =>
            injection h with h2
            subst h2
            rfl

theorem foldlM_sideOf {k : Key} {sd : String} (hsd : sd = "over" ∨ sd = "under") :
    ∀ (offers : List Offer) (g g' : List (Key × Sides)),
      List.foldlM updateGrouped g offers = .ok g' →
      sideOf g' k sd =
        (offers.filterMap (fun o => entryFor o k sd)).foldl stepSide (sideOf g k sd) := by
  intro offers
  induction offers with
  | nil =>
    intro g g' h
    simp only [List.foldlM_nil, pure] at h
    injection h with h2
    subst h2
    rfl
  | cons o t ih =>
    intro g g' h
    rw [List.foldlM_cons] at h
    cases hstep : updateGrouped g o with
    | error e =>
      rw [hstep] at h
      simp [Bind.bind, Except.bind] at h
    | ok g1 =>
      rw [hstep] at h
      simp only [Bind.bind, Except.bind] at h
      have hcomm := updateGrouped_sideOf (k := k) hsd hstep
      rw [List.filterMap_cons]
      cases hef : entryFor o k sd with
      | none =>
        rw [hef] at hcomm
        rw [ih g1 g' h, hcomm]
      | some e =>
        rw [hef] at hcomm
        rw [List.foldl_cons, ih g1 g' h, hcomm]

theorem pickFrom_fanduel {e : Entry} (he : e.book = "fanduel") :
    ∀ l : List Entry, pickFrom e l = e := by
  intro l
  cases l with
  | nil => rfl
  | cons x t =>
    unfold pickFrom
    rw [if_pos he]

theorem pickFrom_cons (e x : Entry) (t : List Entry) :
    pickFrom e (x :: t) = if e.book = "fanduel" then e else pickFrom x t := rfl

theorem foldl_stepSide_some : ∀ (l : List Entry) (e : Entry),
    l.foldl stepSide (some e) = some (pickFrom e l) := by
  intro l
  induction l with
  | nil => intro e; rfl
  | cons x t ih =>
    intro e
    rw [List.foldl_cons]
    by_cases he : e.book = "fanduel"
    · have h1 : stepSide (some e) x = some e := by
        simp [stepSide, keepNew, he]
      rw [h1, ih e, pickFrom_fanduel he t, pickFrom_cons, if_pos he]
    · have h1 : stepSide (some e) x = some x := by
        simp [stepSide, keepNew, he]
      rw [h1, ih x, pickFrom_cons, if_neg he]

theorem pickFrom_policy : ∀ (t : List Entry) (x : Entry),
    some (pickFrom x t) =
      (match (x :: t).find? (fun e => e.book == "fanduel") with
        | some e => some e
        | none => (x :: t).getLast?) := by
  intro t
  induction t with
  | nil =>
    intro x
    by_cases he : x.book = "fanduel"
    · have hb : (x.book == "fanduel") = true := beq_iff_eq.mpr he
      simp [pickFrom, List.find?, hb, List.getLast?]
    · have hb : (x.book == "fanduel") = false := beq_eq_false_iff_ne.mpr he
      simp [pickFrom, List.find?, hb, List.getLast?]
  | cons y t2 ih =>
    intro x
    by_cases he : x.book = "fanduel"
    · have hb : (x.book == "fanduel") = true := beq_iff_eq.mpr he
      rw [pickFrom_cons, if_pos he]
      simp [List.find?, hb]
    · have hb : (x.book == "fanduel") = false := beq_eq_false_iff_ne.mpr he
      have h2 : (x :: y :: t2).find? (fun e => e.book == "fanduel") =
          (y :: t2).find? (fun e => e.book == "fanduel") := by
        simp [List.find?, hb]
      rw [pickFrom_cons, if_neg he, ih y, h2, List.getLast?_cons_cons]

theorem foldl_stepSide_policy : ∀ (l : List Entry),
    l.foldl stepSide none =
      (match l.find? (fun e => e.book == "fanduel") with
        | some e => some e
        | none => l.getLast?) := by
  intro l
  cases l with
  | nil => rfl
  | cons x t =>
    rw [List.foldl_cons]
    have h1 : stepSide none x = some x := rfl
    rw [h1, foldl_stepSide_some, pickFrom_policy]

/-- C4 amended: for every offer stream without non-numeric prices, the
aggregator retains, per (key, side), the FIRST fanduel quote among the valid
matching offers when one is present; otherwise it retains the LAST valid
matching quote seen (not the first, as the spec claims). -/
theorem C4_retention_policy (offers : List Offer) (g : List (Key × Sides)) (k : Key)
    (sd : String) (hsd : sd = "over" ∨ sd = "under")
    (h : groupOffersE offers = .ok g) :
    sideOf g k sd =
      (match (entriesFor offers k sd).find? (fun e => e.book == "fanduel") with
        | some e => some e
        | none => (entriesFor offers k sd).getLast?) := by
  have h1 := foldlM_sideOf (k := k) hsd offers [] g h
  rw [sideOf_nil] at h1
  unfold entriesFor
  rw [h1, foldl_stepSide_policy]

/-- C4 counterexample: two non-priority books alpha then beta quote the same
side of the same key; the aggregator retains beta's quote (the LAST seen), not
alpha's (the first seen), refuting the first-quote-wins clause. -/
theorem C4_counterexample_last_non_priority_wins :
    groupOffersE [oAlpha, oBeta] = .ok gLastWins
    ∧ sideOf gLastWins keyPS sdOver = some { price := 105, book := betaName }
    ∧ some { price := 105, book := betaName } ≠
        some ({ price := 110, book := alphaName } : Entry) := by
  refine ⟨by with_unfolding_all rfl, by with_unfolding_all rfl, by simp [alphaName, betaName]⟩

/-- C4 witness: with fanduel quoting between alpha and beta, fanduel's quote
is retained regardless of the later beta arrival. -/
theorem C4_retention_policy_witness :
    (sdOver = "over" ∨ sdOver = "under")
    ∧ groupOffersE [oAlpha, oFan, oBeta] = .ok gFanWins
    ∧ sideOf gFanWins keyPS sdOver = some { price := 102, book := fanduelName } := by
  have h0 : sdOver = "over" ∨ sdOver = "under" := Or.inl rfl
  have h1 : groupOffersE [oAlpha, oFan, oBeta] = .ok gFanWins := by
    with_unfolding_all rfl
  refine ⟨h0, h1, ?_⟩
  exact (C4_retention_policy [oAlpha, oFan, oBeta] gFanWins keyPS sdOver h0 h1).trans
    (by with_unfolding_all rfl)

theorem updateGrouped_invalid (g : List (Key × Sides)) {o : Offer}
    (h : offerValidB o = false) : updateGrouped g o = .ok g := by
  unfold updateGrouped
  cases hle : normalize_point o.line with
  | none => rfl
  | some lq =>
    simp only []
    rw [if_pos]
    by_contra hc
    push_neg at hc
    obtain ⟨h1, h2, h3, h4⟩ := hc
    rw [offerValidB_of_parts h1 h2 (by rw [hle]; rfl) h3 h4] at h
    exact absurd h (by simp)

theorem updateGrouped_ok_exists (g : List (Key × Sides)) {o : Offer}
    (hs : hasStrOdds o = false) : ∃ g', updateGrouped g o = .ok g' := by
  unfold updateGrouped
  cases hle : normalize_point o.line with
  | none => exact ⟨g, rfl⟩
  | some lq =>
    simp only []
    split
    · exact ⟨g, rfl⟩
    · split
      all_goals
        split
        · cases ho : o.odds with
          | none => exact ⟨g, rfl⟩
          | some v =>
            cases v with
            | int z => exact ⟨_, rfl⟩
            | str s => exact absurd hs (by simp [hasStrOdds, ho])
        · exact ⟨g, rfl⟩

theorem foldlM_filter : ∀ (offers : List Offer) (g : List (Key × Sides)),
    List.foldlM updateGrouped g (offers.filter offerValidB) =
      List.foldlM updateGrouped g offers := by
  intro offers
  induction offers with
  | nil => intro g; rfl
  | cons o t ih =>
    intro g
    by_cases hv : offerValidB o = true
    · rw [List.filter_cons_of_pos hv, List.foldlM_cons, List.foldlM_cons]
      cases hstep : updateGrouped g o with
      | error e => rfl
      | ok g1 =>
        simp only [hstep, Bind.bind, Except.bind]
        exact ih g1
    · have hv2 : offerValidB o = false := by simpa using hv
      rw [List.filter_cons_of_neg (by simp [hv2]), List.foldlM_cons,
        updateGrouped_invalid g hv2]
      simp only [Bind.bind, Except.bind]
      exact ih g

theorem foldlM_ok_of_noStr : ∀ (offers : List Offer), noStrOffers offers →
    ∀ g, ∃ g', List.foldlM updateGrouped g offers = .ok g' := by
  intro offers
  induction offers with
  | nil => intro _ g; exact ⟨g, rfl⟩
  | cons o t ih =>
    intro hns g
    obtain ⟨g1, h1⟩ := updateGrouped_ok_exists g (hns o (List.mem_cons_self o t))
    obtain ⟨g2, h2⟩ := ih (fun o2 ho2 => hns o2 (List.mem_cons_of_mem _ ho2)) g1
    refine ⟨g2, ?_⟩
    rw [List.foldlM_cons, h1]
    simpa [Bind.bind, Except.bind] using h2

/-- C9 counterexample: an offer whose price field is the non-numeric string
"abc" passes is_valid_odds (a Python string compares unequal to 0) and then
int() raises ValueError, aborting the whole batch instead of being dropped
individually — build_props_novig does not return normally. -/
theorem C9_counterexample_nonnumeric_price_raises :
    build_props_novig leagueMLB [oBadOdds] = .error msgValueError := by
  with_unfolding_all rfl

/-- C9 amended: restricted to offer lists whose prices are integers or
missing (no non-numeric strings), build_props_novig returns normally; each
offer with a zero or missing price, empty player/stat, missing line, or
unrecognized side is dropped individually (the output equals the run on the
valid offers alone), and an empty list yields an empty result. -/
theorem C9_drop_invalid_individually (league : String) (offers : List Offer)
    (hns : noStrOffers offers) :
    (∃ out, build_props_novig league offers = .ok out)
    ∧ build_props_novig league offers = build_props_novig league (offers.filter offerValidB)
    ∧ build_props_novig league ([] : List Offer) = .ok [] := by
  refine ⟨?_, ?_, rfl⟩
  · obtain ⟨g, hg⟩ := foldlM_ok_of_noStr offers hns []
    refine ⟨buildPhase2 league g, ?_⟩
    unfold build_props_novig groupOffersE
    dsimp only []
    rw [hg]
    rfl
  · unfold build_props_novig groupOffersE
    dsimp only []
    rw [foldlM_filter]

/-- C9 witness: a batch holding one invalid offer (missing line) and one valid
offer runs to the same output as the filtered batch. -/
theorem C9_drop_invalid_individually_witness :
    noStrOffers [oNoLine, oAlpha]
    ∧ build_props_novig leagueMLB [oNoLine, oAlpha] =
        build_props_novig leagueMLB ([oNoLine, oAlpha].filter offerValidB)
    ∧ build_props_novig leagueMLB ([] : List Offer) = .ok [] := by
  have h0 : noStrOffers [oNoLine, oAlpha] := by
    intro o ho
    rcases List.mem_cons.mp ho with rfl | ho2
    · rfl
    · rcases List.mem_cons.mp ho2 with rfl | ho3
      · rfl
      · simp at ho3
  have h1 := C9_drop_invalid_individually leagueMLB [oNoLine, oAlpha] h0
  exact ⟨h0, h1.2.1, h1.2.2⟩

/-! C8: the best-price selectors.  routes_ev_plays keeps, per h2h side, the
highest decimal payout across every quoting bookmaker of the event;
props_ufc._collect_ml keeps, per fighter, the tightest quote (minimal
absolute American price) instead. -/

theorem bposStep_ok (sd : String) (best r : Option routes_ev_plays.Cand)
    (o : routes_ev_plays.Outcome)
    (h : routes_ev_plays.bposStep sd best o = .ok r) :
    r = (match routes_ev_plays.candOf sd o with
         | none => best
         | some c => routes_ev_plays.pickCand best c) := by
  unfold routes_ev_plays.bposStep at h
  by_cases hn : (o.name.toLower != sd) = true
  · rw [if_pos hn] at h
    injection h with h2
    simp only [routes_ev_plays.candOf, if_pos hn]
    exact h2.symm
  · rw [if_neg hn] at h
    cases hp : o.price with
    | none =>
      rw [hp] at h
      simp only [] at h
      injection h with h2
      simp only [routes_ev_plays.candOf, if_neg hn, hp]
      exact h2.symm
    | some price =>
      rw [hp] at h
      simp only [] at h
      rcases lt_trichotomy 0 price with hlt | heq | hgt
      · have hd : routes_ev_plays.american_to_decimal (some price) =
            .ok (some (1 + price / 100)) := by
          simp only [routes_ev_plays.american_to_decimal]
          rw [if_pos hlt]
        rw [hd] at h
        simp only [routes_ev_plays.implied_prob_from_american, if_pos hlt] at h
        injection h with h2
        simp only [routes_ev_plays.candOf, if_neg hn, hp, if_pos hlt]
        rw [← h2]
        cases best with
        | none => rfl
        | some b => rfl
      · have h0 : ¬ (0 < price) := by rw [← heq]; exact lt_irrefl 0
        have hd : routes_ev_plays.american_to_decimal (some price) =
            .error msgZeroDivision := by
          simp only [routes_ev_plays.american_to_decimal]
          rw [if_neg h0, if_pos heq.symm]
        rw [hd] at h
        simp at h
      · have h0 : ¬ (0 < price) := not_lt.mpr (le_of_lt hgt)
        have hd : routes_ev_plays.american_to_decimal (some price) =
            .ok (some (1 + 100 / |price|)) := by
          simp only [routes_ev_plays.american_to_decimal]
          rw [if_neg h0, if_neg (ne_of_lt hgt)]
        rw [hd] at h
        simp only [routes_ev_plays.implied_prob_from_american, if_neg h0] at h
        injection h with h2
        simp only [routes_ev_plays.candOf, if_neg hn, hp, if_neg h0]
        rw [← h2]
        cases best with
        | none => rfl
        | some b => rfl

theorem foldlM_bposStep_ok : ∀ (outs : List routes_ev_plays.Outcome)
    (b : Option routes_ev_plays.Cand) (sd : String) (r : Option routes_ev_plays.Cand),
    outs.foldlM (routes_ev_plays.bposStep sd) b = .ok r →
    r = (outs.filterMap (routes_ev_plays.candOf sd)).foldl routes_ev_plays.pickCand b := by
  intro outs
  induction outs with
  | nil =>
    intro b sd r h
    simp only [List.foldlM_nil, pure] at h
    injection h with h2
    rw [List.filterMap_nil, List.foldl_nil]
    exact h2.symm
  | cons o t ih =>
    intro b sd r h
    rw [List.foldlM_cons] at h
    cases hstep : routes_ev_plays.bposStep sd b o with
    | error e =>
      rw [hstep] at h
      simp [Bind.bind, Except.bind] at h
    | ok b1 =>
      rw [hstep] at h
      simp only [Bind.bind, Except.bind] at h
      have hb1 := bposStep_ok sd b b1 o hstep
      cases hc : routes_ev_plays.candOf sd o with
      | none =>
        simp only [hc] at hb1
        subst hb1
        simp only [List.filterMap_cons, hc]
        exact ih _ sd r h
      | some c =>
        simp only [hc] at hb1
        subst hb1
        simp only [List.filterMap_cons, hc, List.foldl_cons]
        exact ih _ sd r h

theorem best_price_outcome_ok (m : routes_ev_plays.Market) (sd : String)
    (r : Option routes_ev_plays.Cand)
    (h : routes_ev_plays.best_price_outcome m sd = .ok r) :
    r = (routes_ev_plays.candsOf m sd).foldl routes_ev_plays.pickCand none := by
  unfold routes_ev_plays.best_price_outcome at h
  unfold routes_ev_plays.candsOf
  exact foldlM_bposStep_ok m.outcomes none sd r h

theorem foldl_pickCand_aux : ∀ (cs : List routes_ev_plays.Cand) (b0 b : routes_ev_plays.Cand),
    cs.foldl routes_ev_plays.pickCand (some b0) = some b →
    (b = b0 ∨ b ∈ cs) ∧ b0.decimal ≤ b.decimal ∧ ∀ c ∈ cs, c.decimal ≤ b.decimal := by
  intro cs
  induction cs with
  | nil =>
    intro b0 b h
    simp only [List.foldl_nil] at h
    injection h with h2
    subst h2
    exact ⟨Or.inl rfl, le_refl _, fun c hc => absurd hc (by simp)⟩
  | cons c t ih =>
    intro b0 b h
    rw [List.foldl_cons] at h
    simp only [routes_ev_plays.pickCand] at h
    by_cases hlt : b0.decimal < c.decimal
    · rw [if_pos hlt] at h
      obtain ⟨hm, hle, hall⟩ := ih c b h
      refine ⟨?_, by linarith, ?_⟩
      · rcases hm with rfl | hm2
        · exact Or.inr (List.mem_cons_self _ _)
        · exact Or.inr (List.mem_cons_of_mem _ hm2)
      · intro c2 hc2
        rcases List.mem_cons.mp hc2 with rfl | h3
        · exact hle
        · exact hall c2 h3
    · rw [if_neg hlt] at h
      obtain ⟨hm, hle, hall⟩ := ih b0 b h
      have hcb : c.decimal ≤ b0.decimal := not_lt.mp hlt
      refine ⟨?_, hle, ?_⟩
      · rcases hm with rfl | hm2
        · exact Or.inl rfl
        · exact Or.inr (List.mem_cons_of_mem _ hm2)
      · intro c2 hc2
        rcases List.mem_cons.mp hc2 with rfl | h3
        · exact le_trans hcb hle
        · exact hall c2 h3

theorem foldl_pickCand_some : ∀ (t : List routes_ev_plays.Cand) (b0 : routes_ev_plays.Cand),
    ∃ b, t.foldl routes_ev_plays.pickCand (some b0) = some b := by
  intro t
  induction t with
  | nil => intro b0; exact ⟨b0, rfl⟩
  | cons c t ih =>
    intro b0
    rw [List.foldl_cons]
    simp only [routes_ev_plays.pickCand]
    by_cases hlt : b0.decimal < c.decimal
    · rw [if_pos hlt]; exact ih c
    · rw [if_neg hlt]; exact ih b0

theorem foldl_pickCand_slotMax (cs : List routes_ev_plays.Cand) :
    routes_ev_plays.slotMax (cs.foldl routes_ev_plays.pickCand none) cs := by
  cases cs with
  | nil => exact rfl
  | cons c t =>
    rw [List.foldl_cons]
    have h1 : routes_ev_plays.pickCand none c = some c := rfl
    rw [h1]
    obtain ⟨b, hb⟩ := foldl_pickCand_some t c
    rw [hb]
    obtain ⟨hm, hle, hall⟩ := foldl_pickCand_aux t c b hb
    show b ∈ c :: t ∧ ∀ d ∈ c :: t, d.decimal ≤ b.decimal
    constructor
    · rcases hm with rfl | hm2
      · exact List.mem_cons_self _ _
      · exact List.mem_cons_of_mem _ hm2
    · intro d hd
      rcases List.mem_cons.mp hd with rfl | h3
      · exact hle
      · exact hall d h3

theorem slotMax_attach (bname : String) (r : Option routes_ev_plays.Cand)
    (L : List routes_ev_plays.Cand) (h : routes_ev_plays.slotMax r L) :
    routes_ev_plays.slotMax (routes_ev_plays.attachBook bname r)
      (L.map (fun c => { c with book := some bname })) := by
  cases r with
  | none =>
    have hL : L = [] := h
    subst hL
    exact rfl
  | some c =>
    obtain ⟨hm, hall⟩ := h
    show _ ∈ _ ∧ _
    constructor
    · exact List.mem_map_of_mem _ hm
    · intro d hd
      obtain ⟨d0, hd0, rfl⟩ := List.mem_map.mp hd
      exact hall d0 hd0

theorem slotMax_mergeOne (s b : Option routes_ev_plays.Cand)
    (L M : List routes_ev_plays.Cand)
    (hs : routes_ev_plays.slotMax s L) (hb : routes_ev_plays.slotMax b M) :
    routes_ev_plays.slotMax (routes_ev_plays.mergeOne s b) (L ++ M) := by
  cases b with
  | none =>
    have hM : M = [] := hb
    subst hM
    rw [List.append_nil]
    exact hs
  | some c =>
    obtain ⟨hcm, hcall⟩ := hb
    cases s with
    | none =>
      have hL : L = [] := hs
      subst hL
      show c ∈ [] ++ M ∧ ∀ d ∈ [] ++ M, d.decimal ≤ c.decimal
      rw [List.nil_append]
      exact ⟨hcm, hcall⟩
    | some p =>
      obtain ⟨hpm, hpall⟩ := hs
      by_cases hlt : p.decimal < c.decimal
      · have hm : routes_ev_plays.mergeOne (some p) (some c) = some c := by
          simp only [routes_ev_plays.mergeOne]
          rw [if_pos hlt]
        rw [hm]
        show c ∈ L ++ M ∧ ∀ d ∈ L ++ M, d.decimal ≤ c.decimal
        refine ⟨List.mem_append_right _ hcm, ?_⟩
        intro d hd
        rcases List.mem_append.mp hd with h1 | h2
        · exact le_trans (hpall d h1) (le_of_lt hlt)
        · exact hcall d h2
      · have hm : routes_ev_plays.mergeOne (some p) (some c) = some p := by
          simp only [routes_ev_plays.mergeOne]
          rw [if_neg hlt]
        rw [hm]
        show p ∈ L ++ M ∧ ∀ d ∈ L ++ M, d.decimal ≤ p.decimal
        refine ⟨List.mem_append_left _ hpm, ?_⟩
        intro d hd
        rcases List.mem_append.mp hd with h1 | h2
        · exact hpall d h1
        · exact le_trans (hcall d h2) (not_lt.mp hlt)

theorem homeSlot_update (out : routes_ev_plays.BestOut)
    (x y : Option routes_ev_plays.Cand) :
    routes_ev_plays.homeSlot
      ({ out with h2h := some { home := x, away := y } } : routes_ev_plays.BestOut).h2h = x := rfl

theorem awaySlot_update (out : routes_ev_plays.BestOut)
    (x y : Option routes_ev_plays.Cand) :
    routes_ev_plays.awaySlot
      ({ out with h2h := some { home := x, away := y } } : routes_ev_plays.BestOut).h2h = y := rfl

theorem getD_home (oh : Option routes_ev_plays.H2H) :
    (oh.getD { home := none, away := none }).home = routes_ev_plays.homeSlot oh := by
  cases oh <;> rfl

theorem getD_away (oh : Option routes_ev_plays.H2H) :
    (oh.getD { home := none, away := none }).away = routes_ev_plays.awaySlot oh := by
  cases oh <;> rfl

theorem cbeMarket_slotMax (bname : String) (out out1 : routes_ev_plays.BestOut)
    (m : routes_ev_plays.Market) (H A : List routes_ev_plays.Cand)
    (h : routes_ev_plays.cbeMarket bname out m = .ok out1)
    (hH : routes_ev_plays.slotMax (routes_ev_plays.homeSlot out.h2h) H)
    (hA : routes_ev_plays.slotMax (routes_ev_plays.awaySlot out.h2h) A) :
    routes_ev_plays.slotMax (routes_ev_plays.homeSlot out1.h2h)
      (H ++ routes_ev_plays.marketH2hCands bname m routes_ev_plays.sideHome)
    ∧ routes_ev_plays.slotMax (routes_ev_plays.awaySlot out1.h2h)
      (A ++ routes_ev_plays.marketH2hCands bname m routes_ev_plays.sideAway) := by
  by_cases hk : m.key = "h2h"
  · cases hbh : routes_ev_plays.best_price_outcome m routes_ev_plays.sideHome with
    | error e =>
      unfold routes_ev_plays.cbeMarket at h
      rw [if_pos hk, hbh] at h
      simp at h
    | ok bh0 =>
      cases hba : routes_ev_plays.best_price_outcome m routes_ev_plays.sideAway with
      | error e =>
        unfold routes_ev_plays.cbeMarket at h
        rw [if_pos hk, hbh, hba] at h
        simp at h
      | ok ba0 =>
        unfold routes_ev_plays.cbeMarket at h
        rw [if_pos hk, hbh, hba] at h
        simp only [Except.ok.injEq] at h
        subst h
        have hmcH : routes_ev_plays.marketH2hCands bname m routes_ev_plays.sideHome
            = (routes_ev_plays.candsOf m routes_ev_plays.sideHome).map
                (fun c => { c with book := some bname }) := by
          unfold routes_ev_plays.marketH2hCands
          rw [if_pos hk]
        have hmcA : routes_ev_plays.marketH2hCands bname m routes_ev_plays.sideAway
            = (routes_ev_plays.candsOf m routes_ev_plays.sideAway).map
                (fun c => { c with book := some bname }) := by
          unfold routes_ev_plays.marketH2hCands
          rw [if_pos hk]
        have hsH : routes_ev_plays.slotMax bh0
            (routes_ev_plays.candsOf m routes_ev_plays.sideHome) := by
          rw [best_price_outcome_ok m routes_ev_plays.sideHome bh0 hbh]
          exact foldl_pickCand_slotMax _
        have hsA : routes_ev_plays.slotMax ba0
            (routes_ev_plays.candsOf m routes_ev_plays.sideAway) := by
          rw [best_price_outcome_ok m routes_ev_plays.sideAway ba0 hba]
          exact foldl_pickCand_slotMax _
        constructor
        · rw [homeSlot_update, getD_home, hmcH]
          exact slotMax_mergeOne _ _ _ _ hH (slotMax_attach bname bh0 _ hsH)
        · rw [awaySlot_update, getD_away, hmcA]
          exact slotMax_mergeOne _ _ _ _ hA (slotMax_attach bname ba0 _ hsA)
  · have hmcH : routes_ev_plays.marketH2hCands bname m routes_ev_plays.sideHome = [] := by
      unfold routes_ev_plays.marketH2hCands
      rw [if_neg hk]
    have hmcA : routes_ev_plays.marketH2hCands bname m routes_ev_plays.sideAway = [] := by
      unfold routes_ev_plays.marketH2hCands
      rw [if_neg hk]
    rw [hmcH, hmcA, List.append_nil, List.append_nil]
    by_cases hs : m.key = "spreads"
    · cases hbh : routes_ev_plays.best_price_outcome m routes_ev_plays.sideHome with
      | error e =>
        unfold routes_ev_plays.cbeMarket at h
        rw [if_neg hk, if_pos hs, hbh] at h
        simp at h
      | ok bh0 =>
        cases hba : routes_ev_plays.best_price_outcome m routes_ev_plays.sideAway with
        | error e =>
          unfold routes_ev_plays.cbeMarket at h
          rw [if_neg hk, if_pos hs, hbh, hba] at h
          simp at h
        | ok ba0 =>
          unfold routes_ev_plays.cbeMarket at h
          rw [if_neg hk, if_pos hs, hbh, hba] at h
          simp only [Except.ok.injEq] at h
          subst h
          exact ⟨hH, hA⟩
    · unfold routes_ev_plays.cbeMarket at h
      rw [if_neg hk, if_neg hs] at h
      injection h with h2
      subst h2
      exact ⟨hH, hA⟩

theorem foldlM_cbeMarket_slotMax (bname : String) :
    ∀ (ms : List routes_ev_plays.Market) (out out1 : routes_ev_plays.BestOut)
      (H A : List routes_ev_plays.Cand),
      ms.foldlM (routes_ev_plays.cbeMarket bname) out = .ok out1 →
      routes_ev_plays.slotMax (routes_ev_plays.homeSlot out.h2h) H →
      routes_ev_plays.slotMax (routes_ev_plays.awaySlot out.h2h) A →
      routes_ev_plays.slotMax (routes_ev_plays.homeSlot out1.h2h)
        (H ++ ms.bind (fun m => routes_ev_plays.marketH2hCands bname m routes_ev_plays.sideHome))
      ∧ routes_ev_plays.slotMax (routes_ev_plays.awaySlot out1.h2h)
        (A ++ ms.bind (fun m => routes_ev_plays.marketH2hCands bname m routes_ev_plays.sideAway)) := by
  intro ms
  induction ms with
  | nil =>
    intro out out1 H A h hH hA
    simp only [List.foldlM_nil, pure] at h
    injection h with h2
    subst h2
    simp only [List.nil_bind, List.append_nil]
    exact ⟨hH, hA⟩
  | cons m t ih =>
    intro out out1 H A h hH hA
    rw [List.foldlM_cons] at h
    cases hstep : routes_ev_plays.cbeMarket bname out m with
    | error e =>
      rw [hstep] at h
      simp [Bind.bind, Except.bind] at h
    | ok outm =>
      rw [hstep] at h
      simp only [Bind.bind, Except.bind] at h
      obtain ⟨h1H, h1A⟩ := cbeMarket_slotMax bname out outm m H A hstep hH hA
      obtain ⟨h2H, h2A⟩ := ih outm out1
        (H ++ routes_ev_plays.marketH2hCands bname m routes_ev_plays.sideHome)
        (A ++ routes_ev_plays.marketH2hCands bname m routes_ev_plays.sideAway) h h1H h1A
      rw [List.append_assoc] at h2H h2A
      simp only [List.cons_bind]
      exact ⟨h2H, h2A⟩

theorem foldlM_event_slotMax :
    ∀ (bks : List routes_ev_plays.Bookmaker) (out out1 : routes_ev_plays.BestOut)
      (H A : List routes_ev_plays.Cand),
      bks.foldlM (fun o bk =>
        bk.markets.foldlM (routes_ev_plays.cbeMarket (routes_ev_plays.bnameOf bk)) o) out
        = .ok out1 →
      routes_ev_plays.slotMax (routes_ev_plays.homeSlot out.h2h) H →
      routes_ev_plays.slotMax (routes_ev_plays.awaySlot out.h2h) A →
      routes_ev_plays.slotMax (routes_ev_plays.homeSlot out1.h2h)
        (H ++ bks.bind (fun bk => bk.markets.bind (fun m =>
          routes_ev_plays.marketH2hCands (routes_ev_plays.bnameOf bk) m routes_ev_plays.sideHome)))
      ∧ routes_ev_plays.slotMax (routes_ev_plays.awaySlot out1.h2h)
        (A ++ bks.bind (fun bk => bk.markets.bind (fun m =>
          routes_ev_plays.marketH2hCands (routes_ev_plays.bnameOf bk) m routes_ev_plays.sideAway))) := by
  intro bks
  induction bks with
  | nil =>
    intro out out1 H A h hH hA
    simp only [List.foldlM_nil, pure] at h
    injection h with h2
    subst h2
    simp only [List.nil_bind, List.append_nil]
    exact ⟨hH, hA⟩
  | cons bk t ih =>
    intro out out1 H A h hH hA
    rw [List.foldlM_cons] at h
    cases hstep : bk.markets.foldlM
        (routes_ev_plays.cbeMarket (routes_ev_plays.bnameOf bk)) out with
    | error e =>
      rw [hstep] at h
      simp [Bind.bind, Except.bind] at h
    | ok outb =>
      rw [hstep] at h
      simp only [Bind.bind, Except.bind] at h
      obtain ⟨h1H, h1A⟩ := foldlM_cbeMarket_slotMax (routes_ev_plays.bnameOf bk)
        bk.markets out outb H A hstep hH hA
      obtain ⟨h2H, h2A⟩ := ih outb out1
        (H ++ bk.markets.bind (fun m =>
          routes_ev_plays.marketH2hCands (routes_ev_plays.bnameOf bk) m routes_ev_plays.sideHome))
        (A ++ bk.markets.bind (fun m =>
          routes_ev_plays.marketH2hCands (routes_ev_plays.bnameOf bk) m routes_ev_plays.sideAway))
        h h1H h1A
      rw [List.append_assoc] at h2H h2A
      simp only [List.cons_bind]
      exact ⟨h2H, h2A⟩

theorem collect_best_slotMax (ev : routes_ev_plays.Event) (out : routes_ev_plays.BestOut)
    (h : routes_ev_plays.collect_best_from_event ev = .ok out) :
    routes_ev_plays.slotMax (routes_ev_plays.homeSlot out.h2h)
      (routes_ev_plays.eventH2hCands ev routes_ev_plays.sideHome)
    ∧ routes_ev_plays.slotMax (routes_ev_plays.awaySlot out.h2h)
      (routes_ev_plays.eventH2hCands ev routes_ev_plays.sideAway) := by
  unfold routes_ev_plays.collect_best_from_event at h
  have h0H : routes_ev_plays.slotMax
      (routes_ev_plays.homeSlot
        ({ h2h := none, spreads := [] } : routes_ev_plays.BestOut).h2h) [] := rfl
  have h0A : routes_ev_plays.slotMax
      (routes_ev_plays.awaySlot
        ({ h2h := none, spreads := [] } : routes_ev_plays.BestOut).h2h) [] := rfl
  obtain ⟨hH, hA⟩ := foldlM_event_slotMax ev.bookmakers
    { h2h := none, spreads := [] } out [] [] h h0H h0A
  rw [List.nil_append] at hH hA
  exact ⟨hH, hA⟩

theorem pyInt_abs_le (q : ℚ) : |((pyInt q : ℤ) : ℚ)| ≤ |q| := by
  unfold pyInt
  by_cases hq : 0 ≤ q
  · rw [if_pos hq]
    have h1 : (0 : ℚ) ≤ ((⌊q⌋ : ℤ) : ℚ) := by exact_mod_cast Int.floor_nonneg.mpr hq
    rw [abs_of_nonneg h1, abs_of_nonneg hq]
    exact Int.floor_le q
  · have hq2 : q < 0 := lt_of_not_ge hq
    rw [if_neg hq]
    have h1 : ((⌈q⌉ : ℤ) : ℚ) ≤ 0 := by
      have h2 : ⌈q⌉ ≤ (0 : ℤ) :=
        Int.ceil_le.mpr (by exact_mod_cast le_of_lt hq2)
      exact_mod_cast h2
    rw [abs_of_nonpos h1, abs_of_nonpos (le_of_lt hq2)]
    exact neg_le_neg (Int.le_ceil q)

theorem collectMlStep_fst (a b bk : String)
    (best : Option pairing.Entry × Option pairing.Entry) (o : props_ufc.UfcOutcome) :
    (props_ufc.collectMlStep a b bk best o).1 =
      (match props_ufc.mlQuoteOutcome a bk o with
       | none => best.1
       | some p => props_ufc.mlStepFst best.1 p) := by
  unfold props_ufc.collectMlStep props_ufc.mlQuoteOutcome
  cases hp : o.price with
  | none => rfl
  | some price =>
    simp only []
    by_cases ha : props_ufc.outcomeName o = a
    · rw [if_pos ha, if_pos ha]
      rfl
    · rw [if_neg ha, if_neg ha]
      by_cases hb : props_ufc.outcomeName o = b
      · rw [if_pos hb]
      · rw [if_neg hb]

theorem foldl_collectMlStep_fst (a b bk : String) :
    ∀ (os : List props_ufc.UfcOutcome) (best : Option pairing.Entry × Option pairing.Entry),
      (os.foldl (props_ufc.collectMlStep a b bk) best).1 =
        (os.filterMap (props_ufc.mlQuoteOutcome a bk)).foldl props_ufc.mlStepFst best.1 := by
  intro os
  induction os with
  | nil => intro best; rfl
  | cons o t ih =>
    intro best
    rw [List.foldl_cons]
    have h1 := collectMlStep_fst a b bk best o
    cases hq : props_ufc.mlQuoteOutcome a bk o with
    | none =>
      simp only [hq] at h1
      simp only [List.filterMap_cons, hq]
      rw [ih (props_ufc.collectMlStep a b bk best o), h1]
    | some p =>
      simp only [hq] at h1
      simp only [List.filterMap_cons, hq, List.foldl_cons]
      rw [ih (props_ufc.collectMlStep a b bk best o), h1]

theorem foldl_mlMarkets_fst (a b bk : String) :
    ∀ (ms : List props_ufc.UfcMarket) (best : Option pairing.Entry × Option pairing.Entry),
      (ms.foldl (fun best m =>
          if m.key ≠ props_ufc.UFC_ML_MARKET then best
          else m.outcomes.foldl (props_ufc.collectMlStep a b bk) best) best).1 =
        (ms.bind (fun m =>
          if m.key ≠ props_ufc.UFC_ML_MARKET then []
          else m.outcomes.filterMap (props_ufc.mlQuoteOutcome a bk))).foldl
          props_ufc.mlStepFst best.1 := by
  intro ms
  induction ms with
  | nil => intro best; rfl
  | cons m t ih =>
    intro best
    rw [List.foldl_cons]
    simp only [List.cons_bind]
    by_cases hk : m.key ≠ props_ufc.UFC_ML_MARKET
    · simp only [if_pos hk]
      rw [List.nil_append]
      exact ih best
    · simp only [if_neg hk]
      rw [List.foldl_append]
      rw [ih (m.outcomes.foldl (props_ufc.collectMlStep a b bk) best)]
      rw [foldl_collectMlStep_fst a b bk m.outcomes best]

theorem foldl_mlBks_fst (a b : String) :
    ∀ (bks : List props_ufc.UfcBookmaker) (best : Option pairing.Entry × Option pairing.Entry),
      (bks.foldl (fun best bkr =>
          bkr.markets.foldl (fun best m =>
            if m.key ≠ props_ufc.UFC_ML_MARKET then best
            else m.outcomes.foldl (props_ufc.collectMlStep a b bkr.key) best) best) best).1 =
        (bks.bind (fun bkr => bkr.markets.bind (fun m =>
          if m.key ≠ props_ufc.UFC_ML_MARKET then []
          else m.outcomes.filterMap (props_ufc.mlQuoteOutcome a bkr.key)))).foldl
          props_ufc.mlStepFst best.1 := by
  intro bks
  induction bks with
  | nil => intro best; rfl
  | cons bkr t ih =>
    intro best
    rw [List.foldl_cons]
    simp only [List.cons_bind]
    rw [List.foldl_append]
    rw [ih (bkr.markets.foldl (fun best m =>
      if m.key ≠ props_ufc.UFC_ML_MARKET then best
      else m.outcomes.foldl (props_ufc.collectMlStep a b bkr.key) best) best)]
    rw [foldl_mlMarkets_fst a b bkr.key bkr.markets best]

theorem collect_ml_best_fst (bks : List props_ufc.UfcBookmaker) (a b : String) :
    (props_ufc.collect_ml_best bks a b).1 =
      (props_ufc.mlQuotesFor bks a).foldl props_ufc.mlStepFst none := by
  exact foldl_mlBks_fst a b bks (none, none)

theorem mlStepFst_slotOK (cur : Option pairing.Entry) (Q : List (ℚ × String))
    (p : ℚ × String) (h : props_ufc.mlSlotOK cur Q) :
    props_ufc.mlSlotOK (props_ufc.mlStepFst cur p) (Q ++ [p]) := by
  cases cur with
  | none =>
    have hQ : Q = [] := h
    subst hQ
    rw [List.nil_append]
    refine ⟨⟨p, List.mem_singleton_self p, rfl, rfl⟩, ?_⟩
    intro q hq
    rw [List.mem_singleton] at hq
    subst hq
    exact pyInt_abs_le q.1
  | some e =>
    obtain ⟨⟨q0, hq0, hqp, hqb⟩, hall⟩ := h
    by_cases hlt : |p.1| < |((e.price : ℤ) : ℚ)|
    · have hm : props_ufc.mlStepFst (some e) p =
          some { price := pyInt p.1, book := p.2 } := by
        unfold props_ufc.mlStepFst props_ufc.mlChoose
        rw [if_pos (decide_eq_true hlt)]
      rw [hm]
      refine ⟨⟨p, List.mem_append_right Q (List.mem_singleton_self p), rfl, rfl⟩, ?_⟩
      intro q hq
      rcases List.mem_append.mp hq with h1 | h2
      · exact le_trans (pyInt_abs_le p.1) (le_trans (le_of_lt hlt) (hall q h1))
      · rw [List.mem_singleton] at h2
        subst h2
        exact pyInt_abs_le q.1
    · have hm : props_ufc.mlStepFst (some e) p = some e := by
        unfold props_ufc.mlStepFst props_ufc.mlChoose
        rw [if_neg (fun hc => hlt (of_decide_eq_true hc))]
      rw [hm]
      refine ⟨⟨q0, List.mem_append_left _ hq0, hqp, hqb⟩, ?_⟩
      intro q hq
      rcases List.mem_append.mp hq with h1 | h2
      · exact hall q h1
      · rw [List.mem_singleton] at h2
        subst h2
        exact not_lt.mp hlt

theorem foldl_mlStepFst_slotOK :
    ∀ (T : List (ℚ × String)) (cur : Option pairing.Entry) (Q : List (ℚ × String)),
      props_ufc.mlSlotOK cur Q →
      props_ufc.mlSlotOK (T.foldl props_ufc.mlStepFst cur) (Q ++ T) := by
  intro T
  induction T with
  | nil =>
    intro cur Q h
    rw [List.append_nil]
    exact h
  | cons p t ih =>
    intro cur Q h
    rw [List.foldl_cons]
    have h2 := ih (props_ufc.mlStepFst cur p) (Q ++ [p]) (mlStepFst_slotOK cur Q p h)
    rw [List.append_assoc, List.singleton_append] at h2
    exact h2

theorem collect_ml_best_slotOK (bks : List props_ufc.UfcBookmaker) (a b : String) :
    props_ufc.mlSlotOK (props_ufc.collect_ml_best bks a b).1
      (props_ufc.mlQuotesFor bks a) := by
  rw [collect_ml_best_fst bks a b]
  have h := foldl_mlStepFst_slotOK (props_ufc.mlQuotesFor bks a) none [] rfl
  rw [List.nil_append] at h
  exact h

/-- C8 amended: in routes_ev_plays._collect_best_from_event the retained h2h
candidate of each side is a member of, and decimal-payout-maximal among, the
side's candidates across ALL quoting bookmakers of the event (ties keep the
earlier arrival, not a fixed book priority, and a zero price aborts with
ZeroDivisionError); in props_ufc._collect_ml, by contrast, the retained quote
per fighter is the TIGHTEST one — its stored truncated price comes from one of
the fighter's quotes and its absolute price is minimal among all of them —
not the one with the most favorable payout. -/
theorem C8_best_price_selection
    (ev : routes_ev_plays.Event) (out : routes_ev_plays.BestOut)
    (hev : routes_ev_plays.collect_best_from_event ev = .ok out)
    (bks : List props_ufc.UfcBookmaker) (a b : String) (ea : pairing.Entry)
    (hml : (props_ufc.collect_ml_best bks a b).1 = some ea) :
    (routes_ev_plays.slotMax (routes_ev_plays.homeSlot out.h2h)
        (routes_ev_plays.eventH2hCands ev routes_ev_plays.sideHome)
      ∧ routes_ev_plays.slotMax (routes_ev_plays.awaySlot out.h2h)
        (routes_ev_plays.eventH2hCands ev routes_ev_plays.sideAway))
    ∧ props_ufc.mlSlotOK (some ea) (props_ufc.mlQuotesFor bks a) := by
  refine ⟨collect_best_slotMax ev out hev, ?_⟩
  have h := collect_ml_best_slotOK bks a b
  rw [hml] at h
  exact h

/-- C8 counterexample: (i) bookmakers alpha and beta tie on the identical best
h2h home price +100, and permuting them in the event changes which book the
output names, so the tie-break is arrival order, not a fixed book-priority
ordering; (ii) with bookx quoting Ann Quinn +150 (decimal 2.5) and booky
quoting her -120 (decimal 1.8333...), props_ufc._collect_ml retains the -120
booky quote and prices its emitted row from it, even though +150 pays strictly
more, refuting best-payout selection on this cited path. -/
theorem C8_counterexample_selection :
    routes_ev_plays.collect_best_from_event routes_ev_plays.evAlphaBeta =
      .ok routes_ev_plays.outAlphaBeta
    ∧ routes_ev_plays.collect_best_from_event routes_ev_plays.evBetaAlpha =
      .ok routes_ev_plays.outBetaAlpha
    ∧ routes_ev_plays.outAlphaBeta ≠ routes_ev_plays.outBetaAlpha
    ∧ (props_ufc.collect_ml_best [props_ufc.ufcBkX, props_ufc.ufcBkY]
        props_ufc.fighterAnn props_ufc.fighterBob).1 = some props_ufc.mlEntryAnn
    ∧ props_ufc.collect_ml [props_ufc.ufcBkX, props_ufc.ufcBkY]
        props_ufc.fighterAnn props_ufc.fighterBob =
      [{ fighter := props_ufc.fighterAnn, opponent := props_ufc.fighterBob,
         shop_ml_american := -120, shop_ml_book := props_ufc.bkYName,
         fair_prob_ml := 12/23, fair_american_ml := -109 },
       { fighter := props_ufc.fighterBob, opponent := props_ufc.fighterAnn,
         shop_ml_american := 100, shop_ml_book := props_ufc.bkYName,
         fair_prob_ml := 11/23, fair_american_ml := 109 }]
    ∧ ((150 : ℚ), props_ufc.bkXName) ∈
        props_ufc.mlQuotesFor [props_ufc.ufcBkX, props_ufc.ufcBkY] props_ufc.fighterAnn
    ∧ 1 + 100 / |((props_ufc.mlEntryAnn.price : ℤ) : ℚ)| < 1 + (150 : ℚ) / 100 := by
  refine ⟨?_, ?_, ?_, ?_, ?_, ?_, ?_⟩
  · with_unfolding_all rfl
  · with_unfolding_all rfl
  · with_unfolding_all decide
  · with_unfolding_all rfl
  · with_unfolding_all rfl
  · with_unfolding_all decide
  · with_unfolding_all decide

/-- C8 witness: with alpha quoting home +100 and gamma +120, the event's best
home candidate is gamma's (decimal 2.2), maximal among both quoting books; and
the UFC selector's retained Ann Quinn quote (-120 from booky) has absolute
price at most that of her +150 bookx quote. -/
theorem C8_best_price_selection_witness :
    routes_ev_plays.collect_best_from_event routes_ev_plays.evAlphaGamma =
      .ok routes_ev_plays.outAlphaGamma
    ∧ (props_ufc.collect_ml_best [props_ufc.ufcBkX, props_ufc.ufcBkY]
        props_ufc.fighterAnn props_ufc.fighterBob).1 = some props_ufc.mlEntryAnn
    ∧ routes_ev_plays.slotMax (some routes_ev_plays.candGammaHome)
        (routes_ev_plays.eventH2hCands routes_ev_plays.evAlphaGamma routes_ev_plays.sideHome)
    ∧ |((props_ufc.mlEntryAnn.price : ℤ) : ℚ)| ≤ |(150 : ℚ)| := by
  have hev : routes_ev_plays.collect_best_from_event routes_ev_plays.evAlphaGamma =
      .ok routes_ev_plays.outAlphaGamma := by with_unfolding_all rfl
  have hml : (props_ufc.collect_ml_best [props_ufc.ufcBkX, props_ufc.ufcBkY]
      props_ufc.fighterAnn props_ufc.fighterBob).1 = some props_ufc.mlEntryAnn := by
    with_unfolding_all rfl
  have h := C8_best_price_selection routes_ev_plays.evAlphaGamma
    routes_ev_plays.outAlphaGamma hev [props_ufc.ufcBkX, props_ufc.ufcBkY]
    props_ufc.fighterAnn props_ufc.fighterBob props_ufc.mlEntryAnn hml
  refine ⟨hev, hml, ?_, ?_⟩
  · have heq : routes_ev_plays.homeSlot routes_ev_plays.outAlphaGamma.h2h =
        some routes_ev_plays.candGammaHome := by with_unfolding_all rfl
    exact heq ▸ h.1.1
  · exact h.2.2 ((150 : ℚ), props_ufc.bkXName) (by with_unfolding_all decide)
